import Mathlib

set_option linter.unusedVariables false

/-!
Verification development for the wb-diagram-board canvas editor.

The definitions below are a shallow embedding of the TypeScript sources:
  - src/types/canvas.ts      (data model: elements, history entries, state)
  - src/store/canvas-store.ts (scene store: mutations, history, clipboard,
    z-order, import/export, zoom)
  - src/components/Canvas.tsx (screenToCanvas, handleWheel, drag/resize math)
  - src/components/SelectionOverlay.tsx (resize-handle visibility)

JavaScript numbers are modelled as rationals (ℚ); timestamps as ℕ.
JavaScript objects used as string-keyed maps are modelled as association
lists with unique keys, with JS object semantics: assignment to an existing
key keeps its position, a new key is appended, `delete` removes the key.
-/

namespace WB

/-- A 2-D point, `{x, y}` in the source. -/
structure Pt where
  x : ℚ
  y : ℚ
deriving DecidableEq, Repr

/-- The viewport transform `{x, y, scale}`. -/
structure Transform where
  x : ℚ
  y : ℚ
  scale : ℚ
deriving DecidableEq, Repr

/-- Axis-aligned bounds `{x, y, width, height}`. -/
structure Bounds where
  x : ℚ
  y : ℚ
  width : ℚ
  height : ℚ
deriving DecidableEq, Repr

/-- A canvas element.  The claims under verification only inspect the shared
base fields of `BaseElement` (src/types/canvas.ts); the variant-specific
payload (shape/line/text/... fields) is carried opaquely in `extra`, since
every store operation snapshots, copies and restores elements as whole
values.  `id` is stored both as the map key and inside the element, exactly
as in the source. -/
structure Element where
  id : String
  x : ℚ
  y : ℚ
  width : ℚ
  height : ℚ
  rotation : ℚ
  opacity : ℚ
  locked : Bool
  groupId : Option String
  zIndex : Nat
  createdAt : Nat
  updatedAt : Nat
  extra : String
deriving DecidableEq, Repr

/-- A partial element, the `updates` argument of `updateElement` /
`updateElementSilent` (`Partial<CanvasElement>`): each present field
overwrites the element's field via `Object.assign`. -/
structure ElementUpdate where
  x : Option ℚ := none
  y : Option ℚ := none
  width : Option ℚ := none
  height : Option ℚ := none
  locked : Option Bool := none
  extra : Option String := none
deriving DecidableEq, Repr

/-- `Object.assign(element, updates, { updatedAt: now })`. -/
def applyUpdate (u : ElementUpdate) (el : Element) (now : Nat) : Element :=
  { el with
    x := u.x.getD el.x
    y := u.y.getD el.y
    width := u.width.getD el.width
    height := u.height.getD el.height
    locked := u.locked.getD el.locked
    extra := u.extra.getD el.extra
    updatedAt := now }

/-! ### String-keyed maps (JS objects) as association lists -/

/-- `m[k]`: first binding of key `k`. -/
def findKey {α : Type} (m : List (String × α)) (k : String) : Option α :=
  match m with
  | [] => none
  | (k₁, v) :: rest => if k₁ = k then some v else findKey rest k

/-- `m[k] = v`: replace the binding in place if the key exists, else append
(JS property-assignment order semantics). -/
def setKey {α : Type} (m : List (String × α)) (k : String) (v : α) :
    List (String × α) :=
  match m with
  | [] => [(k, v)]
  | (k₁, v₁) :: rest =>
    if k₁ = k then (k, v) :: rest else (k₁, v₁) :: setKey rest k v

/-- `delete m[k]`. -/
def delKey {α : Type} (m : List (String × α)) (k : String) :
    List (String × α) :=
  m.filter (fun p => p.1 ≠ k)

/-- `Object.keys(m)`. -/
def mapKeys {α : Type} (m : List (String × α)) : List String :=
  m.map Prod.fst

@[simp] theorem findKey_nil {α : Type} (k : String) :
    findKey ([] : List (String × α)) k = none := rfl

@[simp] theorem findKey_cons {α : Type} (k₁ k : String) (v : α)
    (rest : List (String × α)) :
    findKey ((k₁, v) :: rest) k =
      if k₁ = k then some v else findKey rest k := rfl

theorem findKey_setKey_same {α : Type} (m : List (String × α)) (k : String)
    (v : α) : findKey (setKey m k v) k = some v := by
  induction m with
  | nil => simp [setKey, findKey]
  | cons p rest ih =>
    obtain ⟨k₁, v₁⟩ := p
    by_cases h : k₁ = k <;> simp [setKey, findKey, h, ih]

theorem findKey_setKey_other {α : Type} (m : List (String × α))
    (k k₂ : String) (v : α) (hne : k₂ ≠ k) :
    findKey (setKey m k v) k₂ = findKey m k₂ := by
  induction m with
  | nil => simp [setKey, findKey, Ne.symm hne]
  | cons p rest ih =>
    obtain ⟨k₁, v₁⟩ := p
    by_cases h : k₁ = k
    · subst h
      simp [setKey, findKey, Ne.symm hne]
    · simp [setKey, findKey, h, ih]

theorem findKey_setKey {α : Type} (m : List (String × α)) (k k₂ : String)
    (v : α) :
    findKey (setKey m k v) k₂ = if k = k₂ then some v else findKey m k₂ := by
  by_cases h : k = k₂
  · subst h; simp [findKey_setKey_same]
  · simp [h, findKey_setKey_other m k k₂ v (Ne.symm h)]

theorem delKey_cons_same {α : Type} (k : String) (v : α)
    (rest : List (String × α)) : delKey ((k, v) :: rest) k = delKey rest k := by
  simp [delKey]

theorem delKey_cons_other {α : Type} (k k₁ : String) (v₁ : α)
    (rest : List (String × α)) (h : k₁ ≠ k) :
    delKey ((k₁, v₁) :: rest) k = (k₁, v₁) :: delKey rest k := by
  simp [delKey, h]

theorem findKey_delKey {α : Type} (m : List (String × α)) (k k₂ : String) :
    findKey (delKey m k) k₂ = if k = k₂ then none else findKey m k₂ := by
  induction m with
  | nil => simp [delKey, findKey]
  | cons p rest ih =>
    obtain ⟨k₁, v₁⟩ := p
    by_cases h : k₁ = k
    · subst h
      rw [delKey_cons_same, ih]
      by_cases h₂ : k₁ = k₂ <;> simp [h₂, findKey]
    · rw [delKey_cons_other k k₁ v₁ rest h]
      by_cases h₂ : k₁ = k₂
      · subst h₂
        have hk : k ≠ k₁ := Ne.symm h
        simp [findKey, hk]
      · simp [findKey, h₂, ih]

/-! ### History entries and canvas state (canvas-store.ts) -/

/-- `HistoryEntry.type`. -/
inductive EntryType where
  | add
  | update
  | delete
  | batch
deriving DecidableEq, Repr

/-- A `HistoryEntry`.  The source additionally stores an `id` (fresh nanoid)
and a `timestamp` on every entry; neither is ever read by `pushHistory`,
`undo` or `redo`, so they are omitted.  `none` in a snapshot map encodes
the source's `null`: the element did not exist at that edge of the
transition. -/
structure HistoryEntry where
  type : EntryType
  elementIds : List String
  before : List (String × Option Element)
  after : List (String × Option Element)
deriving DecidableEq, Repr

/-- The slice of `CanvasState` that the claims observe.  Omitted fields
(active tool, style defaults, grid flags, hover id, transient UI flags,
dark mode) are never read by the operations below; the grid parameters of
the pointer handlers are passed explicitly to those handlers. -/
structure CanvasState where
  elements : List (String × Element)
  elementOrder : List String
  transform : Transform
  selectedIds : List String
  history : List HistoryEntry
  historyIndex : Int
  clipboard : List Element
deriving DecidableEq, Repr

/-- `pushHistory`: truncate the redo branch, append the entry, move the
cursor to the top; if the stack then exceeds 100 entries, drop the oldest
and decrement the cursor. -/
def pushHistory (e : HistoryEntry) (S : CanvasState) : CanvasState :=
  let hist := S.history.take (S.historyIndex + 1).toNat ++ [e]
  if hist.length > 100 then
    { S with history := hist.drop 1, historyIndex := (hist.length : Int) - 2 }
  else
    { S with history := hist, historyIndex := (hist.length : Int) - 1 }

/-- `addElement`: insert into the map, append to the order, record an `add`
entry with `before = null` and `after = element`. -/
def addElement (el : Element) (S : CanvasState) : CanvasState :=
  pushHistory ⟨.add, [el.id], [(el.id, none)], [(el.id, some el)]⟩
    { S with
      elements := setKey S.elements el.id el
      elementOrder := S.elementOrder ++ [el.id] }

/-- `updateElement`: no-op when the id is absent; otherwise merge the
partial fields, stamp `updatedAt`, and record an `update` entry whose
`before` is the old element and whose `after` is the element read back
after the merge (which equals the merged value). -/
def updateElement (id : String) (u : ElementUpdate) (now : Nat)
    (S : CanvasState) : CanvasState :=
  match findKey S.elements id with
  | none => S
  | some el =>
    let el₁ := applyUpdate u el now
    pushHistory ⟨.update, [id], [(id, some el)], [(id, some el₁)]⟩
      { S with elements := setKey S.elements id el₁ }

/-- `updateElementSilent`: the identical merge, with no history entry. -/
def updateElementSilent (id : String) (u : ElementUpdate) (now : Nat)
    (S : CanvasState) : CanvasState :=
  match findKey S.elements id with
  | none => S
  | some el =>
    { S with elements := setKey S.elements id (applyUpdate u el now) }

/-- `deleteElements`: remove each id from the map and the order, drop the
ids from the selection, and record a `delete` entry whose `before` maps
each id to its old element (or `null` when absent) and whose `after` maps
each id to `null`. -/
def deleteElements (ids : List String) (S : CanvasState) : CanvasState :=
  pushHistory
    ⟨.delete, ids,
      ids.map (fun id => (id, findKey S.elements id)),
      ids.map (fun id => (id, (none : Option Element)))⟩
    { S with
      elements := ids.foldl delKey S.elements
      elementOrder := ids.foldl List.erase S.elementOrder
      selectedIds := S.selectedIds.filter (fun id => !ids.contains id) }

/-- One iteration of the `forEach` loop of `undo`/`redo`: restore or remove
element `id` according to the snapshot map `snap`, on the pair
(elements, elementOrder).  A restored element is appended to the order when
not already present; a removed one is spliced out at its first index.  The
`none` case is unreachable: every entry built by the operations in this
file covers all of its `elementIds` in both snapshot maps. -/
def restoreStep (snap : List (String × Option Element))
    (acc : List (String × Element) × List String) (id : String) :
    List (String × Element) × List String :=
  match findKey snap id with
  | some none => (delKey acc.1 id, acc.2.erase id)
  | some (some el) =>
    (setKey acc.1 id el, if acc.2.contains id then acc.2 else acc.2 ++ [id])
  | none => acc

/-- `undo`: no-op when the cursor is below 0; otherwise replay the `before`
snapshots of the entry at the cursor and decrement the cursor. -/
def undo (S : CanvasState) : CanvasState :=
  if S.historyIndex < 0 then S
  else
    match S.history.get? S.historyIndex.toNat with
    | none => S
    | some e =>
      let p := e.elementIds.foldl (restoreStep e.before) (S.elements, S.elementOrder)
      { S with elements := p.1, elementOrder := p.2,
               historyIndex := S.historyIndex - 1 }

/-- `redo`: no-op when the cursor is at the top; otherwise replay the
`after` snapshots of the entry above the cursor and increment the cursor. -/
def redo (S : CanvasState) : CanvasState :=
  if S.historyIndex ≥ (S.history.length : Int) - 1 then S
  else
    match S.history.get? (S.historyIndex + 1).toNat with
    | none => S
    | some e =>
      let p := e.elementIds.foldl (restoreStep e.after) (S.elements, S.elementOrder)
      { S with elements := p.1, elementOrder := p.2,
               historyIndex := S.historyIndex + 1 }

/-! ### Selection operations -/

def setSelection (ids : List String) (S : CanvasState) : CanvasState :=
  { S with selectedIds := ids }

def addToSelection (id : String) (S : CanvasState) : CanvasState :=
  if S.selectedIds.contains id then S
  else { S with selectedIds := S.selectedIds ++ [id] }

def removeFromSelection (id : String) (S : CanvasState) : CanvasState :=
  { S with selectedIds := S.selectedIds.filter (fun i => i ≠ id) }

def clearSelection (S : CanvasState) : CanvasState :=
  { S with selectedIds := [] }

/-- `selectAll`: `Object.keys(elements)` filtered to the unlocked elements.
The `none` branch is unreachable (`Object.keys` only yields present keys). -/
def selectAll (S : CanvasState) : CanvasState :=
  { S with selectedIds :=
      (mapKeys S.elements).filter (fun id =>
        match findKey S.elements id with
        | some el => !el.locked
        | none => false) }

/-! ### Transform operations -/

/-- The `Partial<Transform>` argument of `setTransform`. -/
structure TransformUpdate where
  x : Option ℚ := none
  y : Option ℚ := none
  scale : Option ℚ := none
deriving DecidableEq, Repr

/-- `setTransform`: `Object.assign(draft.transform, transform)` — no
clamping of any field. -/
def setTransform (u : TransformUpdate) (S : CanvasState) : CanvasState :=
  { S with transform :=
      { x := u.x.getD S.transform.x
        y := u.y.getD S.transform.y
        scale := u.scale.getD S.transform.scale } }

def zoomIn (S : CanvasState) : CanvasState :=
  { S with transform :=
      { S.transform with scale := min (S.transform.scale * (12/10)) 10 } }

def zoomOut (S : CanvasState) : CanvasState :=
  { S with transform :=
      { S.transform with scale := max (S.transform.scale / (12/10)) (1/10) } }

def resetZoom (S : CanvasState) : CanvasState :=
  { S with transform := ⟨0, 0, 1⟩ }

/-- `getElementsBounds`: union of the axis-aligned element boxes, `null`
for an empty list.  The source seeds its running min/max with ±Infinity;
for a nonempty list that is the same as seeding with the first element. -/
def getElementsBounds : List Element → Option Bounds
  | [] => none
  | e :: rest =>
    let minX := rest.foldl (fun a el => min a el.x) e.x
    let minY := rest.foldl (fun a el => min a el.y) e.y
    let maxX := rest.foldl (fun a el => max a (el.x + el.width)) (e.x + e.width)
    let maxY := rest.foldl (fun a el => max a (el.y + el.height)) (e.y + e.height)
    some ⟨minX, minY, maxX - minX, maxY - minY⟩

/-- `zoomToFit`: fit the union bounds into the window with 100px padding,
capping the scale at 1 (and only at 1 — there is no lower clamp).  JS
division yields ±Infinity when a bounds dimension is 0 (the term then drops
out of `Math.min`) where ℚ division yields 0; both satisfy `scale ≤ 1`,
which is all the theorems below use, and the theorems about the resulting
offset assume positive bounds. -/
def zoomToFit (innerW innerH : ℚ) (S : CanvasState) : CanvasState :=
  match getElementsBounds (S.elements.map Prod.snd) with
  | none => S
  | some b =>
    let padding : ℚ := 100
    let viewW := innerW - padding * 2
    let viewH := innerH - padding * 2
    let scale := min (min (viewW / b.width) (viewH / b.height)) 1
    { S with transform :=
        ⟨(-b.x) * scale + (innerW - b.width * scale) / 2,
         (-b.y) * scale + (innerH - b.height * scale) / 2,
         scale⟩ }

/-! ### Clipboard -/

/-- `copy`: deep-snapshot the selected elements (ids missing from the map
are filtered out by `.filter(Boolean)`). -/
def copy (S : CanvasState) : CanvasState :=
  { S with clipboard := S.selectedIds.filterMap (findKey S.elements) }

/-- The deep copy used by `paste`/`duplicateElements`: same fields, fresh
id, additive offset, fresh timestamps. -/
def cloneWith (offset : Pt) (now : Nat) (p : Element × String) : Element :=
  { p.1 with id := p.2, x := p.1.x + offset.x, y := p.1.y + offset.y,
             createdAt := now, updatedAt := now }

/-- `paste`: no-op on an empty clipboard; otherwise deep-copy every
clipboard element with a fresh id (`createId()`, supplied here as the
oracle list `freshIds`), fresh timestamps and the additive offset, insert
them, append them to the order, and select exactly them.  No history entry
is recorded.  The callers' default offset is `{x: 20, y: 20}`. -/
def paste (freshIds : List String) (now : Nat) (offset : Pt)
    (S : CanvasState) : CanvasState :=
  if S.clipboard.isEmpty then S
  else
    let newEls := (S.clipboard.zip freshIds).map (cloneWith offset now)
    { S with
      elements := newEls.foldl (fun m el => setKey m el.id el) S.elements
      elementOrder := S.elementOrder ++ newEls.map Element.id
      selectedIds := newEls.map Element.id }

/-- `duplicateElements`: deep-copy each found element with a fresh id and a
fixed (20, 20) offset, insert, append to order, select the new ids.  Not a
history-producing operation. -/
def duplicateElements (ids : List String) (freshIds : List String)
    (now : Nat) (S : CanvasState) : CanvasState :=
  let found := ids.filterMap (findKey S.elements)
  let newEls := (found.zip freshIds).map (cloneWith ⟨20, 20⟩ now)
  { S with
    elements := newEls.foldl (fun m el => setKey m el.id el) S.elements
    elementOrder := S.elementOrder ++ newEls.map Element.id
    selectedIds := newEls.map Element.id }

/-! ### Z-order operations -/

/-- `bringToFront`: keep the order entries not listed in `ids`, then append
`ids` — in the order given in the argument, whatever it is. -/
def bringToFront (ids : List String) (S : CanvasState) : CanvasState :=
  { S with elementOrder :=
      S.elementOrder.filter (fun id => !ids.contains id) ++ ids }

/-- `sendToBack`: prepend `ids` as given to the remaining order entries. -/
def sendToBack (ids : List String) (S : CanvasState) : CanvasState :=
  { S with elementOrder :=
      ids ++ S.elementOrder.filter (fun id => !ids.contains id) }

/-- Swap the entries at two indices (both in range, else no change). -/
def swapIdx (l : List String) (i j : Nat) : List String :=
  match l.get? i, l.get? j with
  | some a, some b => (l.set i b).set j a
  | _, _ => l

/-- `indexOf` as an option. -/
def firstIdx (l : List String) (id : String) : Option Nat :=
  match l with
  | [] => none
  | x :: rest => if x = id then some 0 else (firstIdx rest id).map (· + 1)

/-- One iteration of `bringForward`: swap `id` with its successor unless it
is already last.  When `id` is absent the source's `indexOf` returns `-1`
and the swap would write out of bounds; every caller passes live selected
ids, and the theorems below require membership, so absence is modelled as
a no-op. -/
def bringForwardOne (order : List String) (id : String) : List String :=
  match firstIdx order id with
  | none => order
  | some i => if i < order.length - 1 then swapIdx order i (i + 1) else order

def bringForward (ids : List String) (S : CanvasState) : CanvasState :=
  { S with elementOrder := ids.foldl bringForwardOne S.elementOrder }

/-- One iteration of `sendBackward`: swap `id` with its predecessor unless
it is already first (absence modelled as a no-op, as above). -/
def sendBackwardOne (order : List String) (id : String) : List String :=
  match firstIdx order id with
  | none => order
  | some i => if 0 < i then swapIdx order i (i - 1) else order

def sendBackward (ids : List String) (S : CanvasState) : CanvasState :=
  { S with elementOrder := ids.foldl sendBackwardOne S.elementOrder }

/-- `clear`: empty document, empty selection, empty history. -/
def clear (S : CanvasState) : CanvasState :=
  { S with elements := [], elementOrder := [], selectedIds := [],
           history := [], historyIndex := -1 }

/-- `selectCanUndo` selector: `historyIndex >= 0`. -/
def selectCanUndo (S : CanvasState) : Bool :=
  S.historyIndex ≥ 0

/-- `selectCanRedo` selector: `historyIndex < history.length - 1`. -/
def selectCanRedo (S : CanvasState) : Bool :=
  S.historyIndex < (S.history.length : Int) - 1

/-! ### Structure lemmas about pushHistory / undo / redo -/

theorem pushHistory_elements (e : HistoryEntry) (S : CanvasState) :
    (pushHistory e S).elements = S.elements := by
  simp only [pushHistory]
  split <;> rfl

theorem pushHistory_elementOrder (e : HistoryEntry) (S : CanvasState) :
    (pushHistory e S).elementOrder = S.elementOrder := by
  simp only [pushHistory]
  split <;> rfl

theorem pushHistory_selectedIds (e : HistoryEntry) (S : CanvasState) :
    (pushHistory e S).selectedIds = S.selectedIds := by
  simp only [pushHistory]
  split <;> rfl

/-- After a push the new entry is on top and the cursor points at it. -/
theorem pushHistory_shape (e : HistoryEntry) (S : CanvasState) :
    ∃ h₀ : List HistoryEntry,
      (pushHistory e S).history = h₀ ++ [e] ∧
      (pushHistory e S).historyIndex = (h₀.length : Int) := by
  simp only [pushHistory]
  set t := S.history.take (S.historyIndex + 1).toNat with ht
  split
  case isTrue h =>
    have h1 : 1 ≤ t.length := by
      simp only [List.length_append, List.length_singleton] at h
      omega
    refine ⟨t.drop 1, ?_, ?_⟩
    · have hd : (t ++ [e]).drop 1 = t.drop 1 ++ [e] :=
        List.drop_append_of_le_length h1
      simpa using hd
    · simp only [List.length_append, List.length_singleton, List.length_drop]
      omega
  case isFalse h =>
    exact ⟨t, rfl, by simp only [List.length_append, List.length_singleton]; omega⟩

/-- `undo` at a state whose cursor sits on the topmost entry `e`: replay
`e.before` and step the cursor down. -/
theorem undo_spec (S' : CanvasState) (h₀ : List HistoryEntry)
    (e : HistoryEntry) (hh : S'.history = h₀ ++ [e])
    (hi : S'.historyIndex = (h₀.length : Int)) :
    undo S' =
      { S' with
        elements := (e.elementIds.foldl (restoreStep e.before)
          (S'.elements, S'.elementOrder)).1
        elementOrder := (e.elementIds.foldl (restoreStep e.before)
          (S'.elements, S'.elementOrder)).2
        historyIndex := S'.historyIndex - 1 } := by
  have hg : S'.history.get? S'.historyIndex.toNat = some e := by
    rw [hh, hi, Int.toNat_natCast, List.get?_eq_getElem?,
      List.getElem?_concat_length]
  have hneg : ¬ S'.historyIndex < 0 := by rw [hi]; omega
  unfold undo
  rw [if_neg hneg, hg]

/-- `redo` at a state whose cursor sits just below the topmost entry `e`:
replay `e.after` and step the cursor up. -/
theorem redo_spec (S' : CanvasState) (h₀ : List HistoryEntry)
    (e : HistoryEntry) (hh : S'.history = h₀ ++ [e])
    (hi : S'.historyIndex = (h₀.length : Int) - 1) :
    redo S' =
      { S' with
        elements := (e.elementIds.foldl (restoreStep e.after)
          (S'.elements, S'.elementOrder)).1
        elementOrder := (e.elementIds.foldl (restoreStep e.after)
          (S'.elements, S'.elementOrder)).2
        historyIndex := S'.historyIndex + 1 } := by
  have hg : S'.history.get? (S'.historyIndex + 1).toNat = some e := by
    rw [hh, hi]
    have hn : ((h₀.length : Int) - 1 + 1).toNat = h₀.length := by omega
    rw [hn, List.get?_eq_getElem?, List.getElem?_concat_length]
  have hguard : ¬ S'.historyIndex ≥ (S'.history.length : Int) - 1 := by
    rw [hh, hi]
    simp only [List.length_append, List.length_singleton]
    push_cast
    omega
  unfold redo
  rw [if_neg hguard, hg]

/-! ### Lookup lemmas for the restore fold -/

theorem restoreStep_fst_other (snap : List (String × Option Element))
    (acc : List (String × Element) × List String) (a id : String)
    (h : a ≠ id) :
    findKey (restoreStep snap acc a).1 id = findKey acc.1 id := by
  rcases hv : findKey snap a with _ | v
  · simp [restoreStep, hv]
  · rcases v with _ | el
    · simp [restoreStep, hv, findKey_delKey, h]
    · simp [restoreStep, hv, findKey_setKey, h]

theorem foldl_restore_fst_not_mem (snap : List (String × Option Element))
    (ids : List String) (id : String) (h : id ∉ ids)
    (acc : List (String × Element) × List String) :
    findKey (ids.foldl (restoreStep snap) acc).1 id = findKey acc.1 id := by
  induction ids generalizing acc with
  | nil => rfl
  | cons a rest ih =>
    have h₁ : id ≠ a := fun hc => h (by simp [hc])
    have h₂ : id ∉ rest := fun hc => h (by simp [hc])
    rw [List.foldl_cons, ih h₂, restoreStep_fst_other _ _ _ _ (Ne.symm h₁)]

/-- After the restore fold, every covered id holds exactly its snapshot
value (deleted when the snapshot is `null`). -/
theorem foldl_restore_fst_mem (snap : List (String × Option Element))
    (ids : List String) (id : String) (hcov : (findKey snap id).isSome)
    (hid : id ∈ ids) (acc : List (String × Element) × List String) :
    findKey (ids.foldl (restoreStep snap) acc).1 id =
      (findKey snap id).join := by
  induction ids generalizing acc with
  | nil => cases hid
  | cons a rest ih =>
    rw [List.foldl_cons]
    by_cases hr : id ∈ rest
    · exact ih hr _
    · have ha : a = id := by
        rcases List.mem_cons.mp hid with h1 | h1
        · exact h1.symm
        · exact absurd h1 hr
      subst ha
      rw [foldl_restore_fst_not_mem _ _ _ hr]
      rcases hv : findKey snap a with _ | v
      · rw [hv] at hcov; cases hcov
      · rcases v with _ | el
        · simp [restoreStep, hv, findKey_delKey]
        · simp [restoreStep, hv, findKey_setKey]

theorem findKey_map_pair {β : Type} (ids : List String) (f : String → β)
    (id : String) (h : id ∈ ids) :
    findKey (ids.map fun i => (i, f i)) id = some (f id) := by
  induction ids with
  | nil => cases h
  | cons a rest ih =>
    by_cases ha : a = id
    · subst ha; simp [findKey]
    · have hr : id ∈ rest := by
        rcases List.mem_cons.mp h with h1 | h1
        · exact absurd h1.symm ha
        · exact h1
      simp [findKey, ha, ih hr]

theorem findKey_foldl_delKey (ids : List String)
    (m : List (String × Element)) (id : String) :
    findKey (ids.foldl delKey m) id =
      if id ∈ ids then none else findKey m id := by
  induction ids generalizing m with
  | nil => simp
  | cons a rest ih =>
    rw [List.foldl_cons, ih]
    by_cases hr : id ∈ rest
    · simp [hr]
    · by_cases ha : a = id
      · subst ha
        simp [hr, findKey_delKey]
      · simp [hr, ha, Ne.symm ha, findKey_delKey, List.mem_cons]

/-! ### C1: the undo/redo round-trip for single non-silent mutations -/

/-- The three non-silent element mutations of the store. -/
inductive Mutation where
  | add (el : Element)
  | update (id : String) (u : ElementUpdate) (now : Nat)
  | delete (ids : List String)

def applyMut : Mutation → CanvasState → CanvasState
  | .add el => addElement el
  | .update id u now => updateElement id u now
  | .delete ids => deleteElements ids

/-- The element ids a mutation touches in state `S` (an update of an absent
id is a complete no-op that records no entry and affects nothing). -/
def affectedIds (S : CanvasState) : Mutation → List String
  | .add el => [el.id]
  | .update id _ _ => if (findKey S.elements id).isSome then [id] else []
  | .delete ids => ids

/-- Precondition of the round-trip: an added element carries a fresh id
(the source always calls `addElement` with `createId()` output, and the
data model declares element ids globally unique). -/
def mutWf (S : CanvasState) : Mutation → Prop
  | .add el => findKey S.elements el.id = none
  | .update _ _ _ => True
  | .delete _ => True

/-- C1.  For every state `S` and every single non-silent mutation `M`,
undoing right after `apply M S` restores every affected element to its
value in `S` field-for-field (in particular it deletes elements `M`
created), and redoing right after that undo reproduces the post-`M` value
of every affected element field-for-field. -/
theorem c1_undo_redo_roundtrip (S : CanvasState) (M : Mutation)
    (hwf : mutWf S M) (id : String) (hid : id ∈ affectedIds S M) :
    findKey (undo (applyMut M S)).elements id = findKey S.elements id ∧
    findKey (redo (undo (applyMut M S))).elements id =
      findKey (applyMut M S).elements id := by
  cases M with
  | add el =>
    have hfresh : findKey S.elements el.id = none := hwf
    have hida : id = el.id := by simpa [affectedIds] using hid
    subst hida
    set e : HistoryEntry :=
      ⟨.add, [el.id], [(el.id, none)], [(el.id, some el)]⟩ with he
    set S₁ : CanvasState :=
      { S with elements := setKey S.elements el.id el
               elementOrder := S.elementOrder ++ [el.id] } with hS₁
    have happ : applyMut (.add el) S = pushHistory e S₁ := by
      simp [applyMut, addElement, he, hS₁]
    obtain ⟨h₀, hh, hi⟩ := pushHistory_shape e S₁
    have hundo := undo_spec (pushHistory e S₁) h₀ e hh hi
    have hU₁ : (undo (pushHistory e S₁)).elements =
        (e.elementIds.foldl (restoreStep e.before)
          (S₁.elements, S₁.elementOrder)).1 := by
      rw [hundo]
      simp [pushHistory_elements, pushHistory_elementOrder]
    constructor
    · rw [happ, hU₁]
      have hmem : findKey (e.elementIds.foldl (restoreStep e.before)
          (S₁.elements, S₁.elementOrder)).1 el.id =
          (findKey e.before el.id).join :=
        foldl_restore_fst_mem _ _ _ (by simp [he, findKey]) (by simp [he]) _
      rw [hmem, hfresh]
      simp [he, findKey]
    · have hUhist : (undo (pushHistory e S₁)).history = h₀ ++ [e] := by
        rw [hundo]; simpa using hh
      have hUidx : (undo (pushHistory e S₁)).historyIndex =
          (h₀.length : Int) - 1 := by
        rw [hundo]; simp [hi]
      have hredo := redo_spec (undo (pushHistory e S₁)) h₀ e hUhist hUidx
      rw [happ, hredo]
      have hleft : findKey (e.elementIds.foldl (restoreStep e.after)
          ((undo (pushHistory e S₁)).elements,
           (undo (pushHistory e S₁)).elementOrder)).1 el.id =
          (findKey e.after el.id).join :=
        foldl_restore_fst_mem _ _ _ (by simp [he, findKey]) (by simp [he]) _
      simp only [hleft]
      rw [pushHistory_elements]
      simp [he, findKey, hS₁, findKey_setKey_same]
  | update uid u now =>
    rcases hfind : findKey S.elements uid with _ | el
    · simp [affectedIds, hfind] at hid
    · have hida : id = uid := by simpa [affectedIds, hfind] using hid
      subst hida
      set el₁ : Element := applyUpdate u el now with hel₁
      set e : HistoryEntry :=
        ⟨.update, [id], [(id, some el)], [(id, some el₁)]⟩ with he
      set S₁ : CanvasState :=
        { S with elements := setKey S.elements id el₁ } with hS₁
      have happ : applyMut (.update id u now) S = pushHistory e S₁ := by
        simp [applyMut, updateElement, hfind, he, hS₁, hel₁]
      obtain ⟨h₀, hh, hi⟩ := pushHistory_shape e S₁
      have hundo := undo_spec (pushHistory e S₁) h₀ e hh hi
      have hU₁ : (undo (pushHistory e S₁)).elements =
          (e.elementIds.foldl (restoreStep e.before)
            (S₁.elements, S₁.elementOrder)).1 := by
        rw [hundo]
        simp [pushHistory_elements, pushHistory_elementOrder]
      constructor
      · rw [happ, hU₁]
        have hmem : findKey (e.elementIds.foldl (restoreStep e.before)
            (S₁.elements, S₁.elementOrder)).1 id =
            (findKey e.before id).join :=
          foldl_restore_fst_mem _ _ _ (by simp [he, findKey]) (by simp [he]) _
        rw [hmem, hfind]
        simp [he, findKey]
      · have hUhist : (undo (pushHistory e S₁)).history = h₀ ++ [e] := by
          rw [hundo]; simpa using hh
        have hUidx : (undo (pushHistory e S₁)).historyIndex =
            (h₀.length : Int) - 1 := by
          rw [hundo]; simp [hi]
        have hredo := redo_spec (undo (pushHistory e S₁)) h₀ e hUhist hUidx
        rw [happ, hredo]
        have hleft : findKey (e.elementIds.foldl (restoreStep e.after)
            ((undo (pushHistory e S₁)).elements,
             (undo (pushHistory e S₁)).elementOrder)).1 id =
            (findKey e.after id).join :=
          foldl_restore_fst_mem _ _ _ (by simp [he, findKey]) (by simp [he]) _
        simp only [hleft]
        rw [pushHistory_elements]
        simp [he, findKey, hS₁, findKey_setKey_same]
  | delete ids =>
    have hida : id ∈ ids := by simpa [affectedIds] using hid
    set e : HistoryEntry :=
      ⟨.delete, ids, ids.map (fun i => (i, findKey S.elements i)),
        ids.map (fun i => (i, (none : Option Element)))⟩ with he
    set S₁ : CanvasState :=
      { S with elements := ids.foldl delKey S.elements
               elementOrder := ids.foldl List.erase S.elementOrder
               selectedIds := S.selectedIds.filter (fun i => !ids.contains i) }
      with hS₁
    have happ : applyMut (.delete ids) S = pushHistory e S₁ := rfl
    obtain ⟨h₀, hh, hi⟩ := pushHistory_shape e S₁
    have hundo := undo_spec (pushHistory e S₁) h₀ e hh hi
    have hU₁ : (undo (pushHistory e S₁)).elements =
        (e.elementIds.foldl (restoreStep e.before)
          (S₁.elements, S₁.elementOrder)).1 := by
      rw [hundo]
      simp [pushHistory_elements, pushHistory_elementOrder]
    have hbefore : findKey e.before id = some (findKey S.elements id) := by
      simpa [he] using findKey_map_pair ids (fun i => findKey S.elements i) id hida
    have hafter : findKey e.after id = some (none : Option Element) := by
      simpa [he] using findKey_map_pair ids (fun _ => (none : Option Element)) id hida
    constructor
    · rw [happ, hU₁]
      have hmem : findKey (e.elementIds.foldl (restoreStep e.before)
          (S₁.elements, S₁.elementOrder)).1 id = (findKey e.before id).join :=
        foldl_restore_fst_mem _ _ _ (by simp [hbefore]) (by simpa [he] using hida) _
      rw [hmem, hbefore]
      simp
    · have hUhist : (undo (pushHistory e S₁)).history = h₀ ++ [e] := by
        rw [hundo]; simpa using hh
      have hUidx : (undo (pushHistory e S₁)).historyIndex =
          (h₀.length : Int) - 1 := by
        rw [hundo]; simp [hi]
      have hredo := redo_spec (undo (pushHistory e S₁)) h₀ e hUhist hUidx
      rw [happ, hredo]
      have hleft : findKey (e.elementIds.foldl (restoreStep e.after)
          ((undo (pushHistory e S₁)).elements,
           (undo (pushHistory e S₁)).elementOrder)).1 id =
          (findKey e.after id).join :=
        foldl_restore_fst_mem _ _ _ (by simp [hafter])
          (by simpa [he] using hida) _
      simp only [hleft]
      rw [pushHistory_elements]
      rw [hafter]
      simp [hS₁, findKey_foldl_delKey, hida]

/-- A concrete one-element state used by witnesses. -/
def elemA : Element :=
  { id := "a", x := 0, y := 0, width := 100, height := 100, rotation := 0,
    opacity := 1, locked := false, groupId := none, zIndex := 0,
    createdAt := 0, updatedAt := 0, extra := "" }

def c1WitnessState : CanvasState :=
  { elements := [("a", elemA)], elementOrder := ["a"], transform := ⟨0, 0, 1⟩,
    selectedIds := [], history := [], historyIndex := -1, clipboard := [] }

/-- Witness for C1: a concrete update round-trips through undo and redo. -/
theorem c1_undo_redo_roundtrip_witness :
    findKey (undo (applyMut
        (.update "a" { x := some 5 } 10) c1WitnessState)).elements "a" =
      findKey c1WitnessState.elements "a" ∧
    findKey (redo (undo (applyMut
        (.update "a" { x := some 5 } 10) c1WitnessState))).elements "a" =
      findKey (applyMut
        (.update "a" { x := some 5 } 10) c1WitnessState).elements "a" :=
  c1_undo_redo_roundtrip c1WitnessState
    (.update "a" { x := some 5 } 10) trivial "a" (by decide)

/-! ### C7: bounded history -/

/-- A sequence of pushes (each one a completed non-silent mutation). -/
def pushMany (es : List HistoryEntry) (S : CanvasState) : CanvasState :=
  es.foldl (fun s e => pushHistory e s) S

theorem pushMany_append (es : List HistoryEntry) (e : HistoryEntry)
    (S : CanvasState) :
    pushMany (es ++ [e]) S = pushHistory e (pushMany es S) := by
  simp [pushMany, List.foldl_append]

/-- Sequential pushes starting from an empty history keep exactly the last
100 entries, with the cursor at the top. -/
theorem pushMany_from_empty (es : List HistoryEntry) (S : CanvasState)
    (h0 : S.history = []) (hi : S.historyIndex = -1) :
    (pushMany es S).history = es.drop (es.length - 100) ∧
    (pushMany es S).historyIndex = (min es.length 100 : Int) - 1 := by
  induction es using List.reverseRecOn with
  | nil =>
    constructor <;> simp [pushMany, h0, hi]
  | append_singleton es e ih =>
    obtain ⟨ih1, ih2⟩ := ih
    rw [pushMany_append]
    have hlen : (pushMany es S).history.length = min es.length 100 := by
      rw [ih1, List.length_drop]; omega
    have htoNat : ((pushMany es S).historyIndex + 1).toNat = min es.length 100 := by
      rw [ih2]; omega
    have htake : (pushMany es S).history.take
        ((pushMany es S).historyIndex + 1).toNat = (pushMany es S).history := by
      rw [htoNat]
      exact List.take_of_length_le (le_of_eq hlen)
    by_cases hcase : es.length < 100
    · have hc : ¬ ((pushMany es S).history ++ [e]).length > 100 := by
        rw [List.length_append, hlen]; simp; omega
      have hpush : pushHistory e (pushMany es S) =
          { pushMany es S with
            history := (pushMany es S).history ++ [e]
            historyIndex := (((pushMany es S).history ++ [e]).length : Int) - 1 } := by
        simp only [pushHistory]
        rw [htake, if_neg hc]
      rw [hpush]
      constructor
      · show (pushMany es S).history ++ [e] = (es ++ [e]).drop ((es ++ [e]).length - 100)
        rw [ih1, List.length_append]
        have h1 : es.length - 100 = 0 := by omega
        have h2 : es.length + [e].length - 100 = 0 := by simp; omega
        rw [h1, h2]
        simp
      · show (((pushMany es S).history ++ [e]).length : Int) - 1 =
          (min (es ++ [e]).length 100 : Int) - 1
        rw [List.length_append, hlen, List.length_append]
        simp
        omega
    · have hc : ((pushMany es S).history ++ [e]).length > 100 := by
        rw [List.length_append, hlen]; simp; omega
      have hpush : pushHistory e (pushMany es S) =
          { pushMany es S with
            history := ((pushMany es S).history ++ [e]).drop 1
            historyIndex := (((pushMany es S).history ++ [e]).length : Int) - 2 } := by
        simp only [pushHistory]
        rw [htake, if_pos hc]
      rw [hpush]
      constructor
      · show ((pushMany es S).history ++ [e]).drop 1 =
          (es ++ [e]).drop ((es ++ [e]).length - 100)
        rw [List.drop_append_of_le_length (by rw [hlen]; omega), ih1,
          List.drop_drop]
        rw [List.length_append]
        have h1 : es.length - 100 + 1 = es.length + [e].length - 100 := by
          simp only [List.length_singleton]
          omega
        rw [h1]
        rw [List.drop_append_of_le_length
          (by simp only [List.length_singleton]; omega)]
      · show (((pushMany es S).history ++ [e]).length : Int) - 2 =
          (min (es ++ [e]).length 100 : Int) - 1
        rw [List.length_append, hlen, List.length_append]
        simp
        omega

/-- C7 (amended).  The length-limit drop happens when the cursor is at the
top of a full stack: (a) pushing onto a 100-entry stack whose cursor is at
the top (`historyIndex = 99`) drops the oldest entry, appends the new one
(100 entries remain) and leaves the cursor at 99 — one less than the
pre-drop top, the "decrement" of the source; (b) pushing 101 sequential
entries onto an empty history leaves exactly the last 100, so the first
entry is gone and can no longer be reached by repeated undo. -/
theorem c7_bounded_history :
    (∀ (S : CanvasState) (e : HistoryEntry),
      S.history.length = 100 → S.historyIndex = 99 →
      (pushHistory e S).history = S.history.drop 1 ++ [e] ∧
      (pushHistory e S).history.length = 100 ∧
      (pushHistory e S).historyIndex = 99) ∧
    (∀ (S : CanvasState) (es : List HistoryEntry),
      S.history = [] → S.historyIndex = -1 → es.length = 101 →
      (pushMany es S).history = es.drop 1 ∧
      (pushMany es S).history.length = 100) := by
  constructor
  · intro S e h100 h99
    have htake : S.history.take (S.historyIndex + 1).toNat = S.history := by
      rw [h99]
      have h1 : ((99 : Int) + 1).toNat = 100 := rfl
      rw [h1]
      exact List.take_of_length_le (le_of_eq h100)
    have hc : (S.history ++ [e]).length > 100 := by
      rw [List.length_append, h100]; norm_num
    have hpush : pushHistory e S =
        { S with history := (S.history ++ [e]).drop 1
                 historyIndex := ((S.history ++ [e]).length : Int) - 2 } := by
      simp only [pushHistory]
      rw [htake, if_pos hc]
    rw [hpush]
    refine ⟨?_, ?_, ?_⟩
    · show (S.history ++ [e]).drop 1 = S.history.drop 1 ++ [e]
      exact List.drop_append_of_le_length (by omega)
    · show ((S.history ++ [e]).drop 1).length = 100
      rw [List.length_drop, List.length_append, h100]
      simp
    · show ((S.history ++ [e]).length : Int) - 2 = 99
      rw [List.length_append, h100]
      rfl
  · intro S es h0 hi h101
    obtain ⟨hh, _⟩ := pushMany_from_empty es S h0 hi
    rw [h101] at hh
    refine ⟨by simpa using hh, ?_⟩
    rw [hh, List.length_drop, h101]

/-- A 100-deep history whose cursor has been undone back to position 0. -/
def c7CounterState : CanvasState :=
  { elements := [], elementOrder := [], transform := ⟨0, 0, 1⟩,
    selectedIds := [],
    history := List.replicate 100 ⟨EntryType.batch, [], [], []⟩,
    historyIndex := 0, clipboard := [] }

/-- C7 counterexample.  The claim quantifies over every state with a
100-entry stack, but when the cursor is not at the top the push first
truncates the redo branch: here the stack holds 100 entries with the
cursor at 0, and pushing leaves 2 entries — the oldest entry is still the
bottom of the stack (nothing was dropped from the bottom) and the cursor
is incremented to 1, not decremented. -/
theorem c7_counterexample :
    c7CounterState.history.length = 100 ∧
    (pushHistory ⟨EntryType.add, ["x"], [], []⟩ c7CounterState).history =
      [⟨EntryType.batch, [], [], []⟩, ⟨EntryType.add, ["x"], [], []⟩] ∧
    (pushHistory ⟨EntryType.add, ["x"], [], []⟩ c7CounterState).historyIndex = 1 := by
  refine ⟨by decide, by decide, by decide⟩

/-- Witness for C7 (amended), part (b): 101 concrete pushes from the empty
initial state leave exactly the last 100 entries. -/
theorem c7_bounded_history_witness :
    (pushMany ((List.range 101).map
        (fun i => ⟨EntryType.batch, [toString i], [], []⟩)) c1WitnessState).history =
      ((List.range 101).map
        (fun i => ⟨EntryType.batch, [toString i], [], []⟩)).drop 1 ∧
    (pushMany ((List.range 101).map
        (fun i => ⟨EntryType.batch, [toString i], [], []⟩)) c1WitnessState).history.length = 100 :=
  c7_bounded_history.2 c1WitnessState _ rfl rfl (by simp)

/-! ### C5: z-order semantics -/

/-- Keeping, from a duplicate-free list, exactly the members of a
subsequence recovers that subsequence. -/
theorem filter_contains_of_sublist {l₁ l₂ : List String}
    (hsub : l₁.Sublist l₂) (hnd : l₂.Nodup) :
    l₂.filter (fun x => l₁.contains x) = l₁ := by
  induction hsub with
  | slnil => simp
  | @cons t₁ t₂ b hsub ih =>
    obtain ⟨hb, hnd₂⟩ := List.nodup_cons.mp hnd
    have hbl : b ∉ t₁ := fun hc => hb (hsub.subset hc)
    have hcb : t₁.contains b = false := by simp_all
    simp only [List.filter_cons, hcb, cond_false]
    exact ih hnd₂
  | @cons₂ t₁ t₂ b hsub ih =>
    obtain ⟨hb, hnd₂⟩ := List.nodup_cons.mp hnd
    have hcb : (b :: t₁).contains b = true := by simp
    simp only [List.filter_cons, hcb, cond_true]
    have hcongr : t₂.filter (fun x => (b :: t₁).contains x) =
        t₂.filter (fun x => t₁.contains x) := by
      refine List.filter_congr ?_
      intro x hx
      have hxb : x ≠ b := fun hc => hb (hc ▸ hx)
      simp [List.contains_cons, hxb]
    rw [hcongr, ih hnd₂]
    simp

theorem firstIdx_getElem? (l : List String) (id : String) (i : Nat)
    (h : firstIdx l id = some i) : l[i]? = some id := by
  induction l generalizing i with
  | nil => simp [firstIdx] at h
  | cons x rest ih =>
    by_cases hx : x = id
    · simp only [firstIdx, hx, if_pos, Option.some.injEq] at h
      subst h
      simp [hx]
    · simp only [firstIdx, hx, if_neg, Option.map_eq_some', not_false_iff] at h
      obtain ⟨j, hj, rfl⟩ := h
      simpa using ih j hj

theorem firstIdx_lt_length (l : List String) (id : String) (i : Nat)
    (h : firstIdx l id = some i) : i < l.length :=
  (List.getElem?_eq_some.mp (firstIdx_getElem? l id i h)).1

theorem swapIdx_eq (l : List String) (i j : Nat) (a b : String)
    (hi : l[i]? = some a) (hj : l[j]? = some b) :
    swapIdx l i j = (l.set i b).set j a := by
  have hi' : l.get? i = some a := by rw [List.get?_eq_getElem?]; exact hi
  have hj' : l.get? j = some b := by rw [List.get?_eq_getElem?]; exact hj
  simp only [swapIdx, hi', hj']

theorem swapIdx_getElem?_fst (l : List String) (i j : Nat) (a b : String)
    (hi : l[i]? = some a) (hj : l[j]? = some b) (hij : j ≠ i) :
    (swapIdx l i j)[i]? = some b := by
  have hil : i < l.length := (List.getElem?_eq_some.mp hi).1
  rw [swapIdx_eq l i j a b hi hj, List.getElem?_set_ne hij]
  simp [List.getElem?_set_self', hil]

theorem swapIdx_getElem?_snd (l : List String) (i j : Nat) (a b : String)
    (hi : l[i]? = some a) (hj : l[j]? = some b) :
    (swapIdx l i j)[j]? = some a := by
  have hjl : j < l.length := (List.getElem?_eq_some.mp hj).1
  rw [swapIdx_eq l i j a b hi hj]
  simp [List.getElem?_set_self', hjl]

theorem swapIdx_getElem?_other (l : List String) (i j : Nat) (a b : String)
    (hi : l[i]? = some a) (hj : l[j]? = some b) (k : Nat)
    (hki : k ≠ i) (hkj : k ≠ j) :
    (swapIdx l i j)[k]? = l[k]? := by
  rw [swapIdx_eq l i j a b hi hj,
    List.getElem?_set_ne (Ne.symm hkj), List.getElem?_set_ne (Ne.symm hki)]

/-- A state with three elements in order a, b, c; used by witnesses. -/
def c5WitnessState : CanvasState :=
  { elements := [("a", elemA), ("b", { elemA with id := "b" }),
      ("c", { elemA with id := "c" })],
    elementOrder := ["a", "b", "c"], transform := ⟨0, 0, 1⟩,
    selectedIds := [], history := [], historyIndex := -1, clipboard := [] }

/-- C5 counterexample.  `bringToFront` appends the ids in the order they
appear in the *argument*, not in their original z-order: on order
`["a","b","c"]` (all given ids occur in the order), `bringToFront
["b","a"]` yields `["c","b","a"]`, whereas preserving the moved ids'
relative order as it was in the original `elementOrder` (`a` before `b`)
would yield `["c","a","b"]`. -/
theorem c5_counterexample :
    (bringToFront ["b", "a"] c5WitnessState).elementOrder = ["c", "b", "a"] ∧
    c5WitnessState.elementOrder.filter
      (fun id => (["b", "a"] : List String).contains id) = ["a", "b"] ∧
    (["c", "b", "a"] : List String) ≠ ["c", "a", "b"] := by
  refine ⟨by decide, by decide, by decide⟩

/-- C5 (amended).  `bringToFront`/`sendToBack` move the given ids to the
end/start of the order in the order given in the argument; when the
argument lists the ids in their original relative order (in particular for
a single id), the moved block preserves the original relative order.
Scenario D holds as stated.  `bringForward`/`sendBackward` swap each given
id one position toward front/back, bounded at the array ends. -/
theorem c5_zorder :
    (∀ (S : CanvasState) (ids : List String),
      ids.Sublist S.elementOrder → S.elementOrder.Nodup →
      (bringToFront ids S).elementOrder =
        S.elementOrder.filter (fun id => !ids.contains id) ++
          S.elementOrder.filter (fun id => ids.contains id) ∧
      (sendToBack ids S).elementOrder =
        S.elementOrder.filter (fun id => ids.contains id) ++
          S.elementOrder.filter (fun id => !ids.contains id)) ∧
    (∀ S : CanvasState, S.elementOrder = ["a", "b", "c"] →
      (bringToFront ["b"] S).elementOrder = ["a", "c", "b"] ∧
      (sendToBack ["c"] S).elementOrder = ["c", "a", "b"]) ∧
    (∀ (S : CanvasState) (id : String) (i : Nat),
      firstIdx S.elementOrder id = some i →
      (i < S.elementOrder.length - 1 →
        ((bringForward [id] S).elementOrder)[i + 1]? = some id ∧
        ((bringForward [id] S).elementOrder)[i]? =
          (S.elementOrder)[i + 1]? ∧
        ∀ j : Nat, j ≠ i → j ≠ i + 1 →
          ((bringForward [id] S).elementOrder)[j]? =
            (S.elementOrder)[j]?) ∧
      (¬ i < S.elementOrder.length - 1 →
        (bringForward [id] S).elementOrder = S.elementOrder)) ∧
    (∀ (S : CanvasState) (id : String) (i : Nat),
      firstIdx S.elementOrder id = some i →
      (0 < i →
        ((sendBackward [id] S).elementOrder)[i - 1]? = some id ∧
        ((sendBackward [id] S).elementOrder)[i]? =
          (S.elementOrder)[i - 1]? ∧
        ∀ j : Nat, j ≠ i → j ≠ i - 1 →
          ((sendBackward [id] S).elementOrder)[j]? =
            (S.elementOrder)[j]?) ∧
      (¬ 0 < i →
        (sendBackward [id] S).elementOrder = S.elementOrder)) := by
  refine ⟨?_, ?_, ?_, ?_⟩
  · intro S ids hsub hnd
    constructor
    · show S.elementOrder.filter (fun id => !ids.contains id) ++ ids = _
      rw [filter_contains_of_sublist hsub hnd]
    · show ids ++ S.elementOrder.filter (fun id => !ids.contains id) = _
      rw [filter_contains_of_sublist hsub hnd]
  · intro S h
    constructor
    · show S.elementOrder.filter
          (fun id => !(["b"] : List String).contains id) ++ ["b"] = _
      rw [h]; decide
    · show (["c"] : List String) ++ S.elementOrder.filter
          (fun id => !(["c"] : List String).contains id) = _
      rw [h]; decide
  · intro S id i hfi
    have hbf : (bringForward [id] S).elementOrder =
        bringForwardOne S.elementOrder id := rfl
    have hget : (S.elementOrder)[i]? = some id := firstIdx_getElem? _ _ _ hfi
    constructor
    · intro hlt
      have hlen : i < S.elementOrder.length := firstIdx_lt_length _ _ _ hfi
      have hlt1 : i + 1 < S.elementOrder.length := by omega
      obtain ⟨b, hb⟩ : ∃ b, (S.elementOrder)[i + 1]? = some b :=
        ⟨S.elementOrder[i + 1], List.getElem?_eq_getElem hlt1⟩
      have hswap : (bringForward [id] S).elementOrder =
          swapIdx S.elementOrder i (i + 1) := by
        rw [hbf]
        simp only [bringForwardOne, hfi]
        rw [if_pos hlt]
      refine ⟨?_, ?_, ?_⟩
      · rw [hswap]
        exact swapIdx_getElem?_snd _ _ _ _ _ hget hb
      · rw [hswap, hb]
        exact swapIdx_getElem?_fst _ _ _ _ _ hget hb (by omega)
      · intro j hji hji1
        rw [hswap]
        exact swapIdx_getElem?_other _ _ _ _ _ hget hb j hji hji1
    · intro hge
      rw [hbf]
      simp only [bringForwardOne, hfi]
      rw [if_neg hge]
  · intro S id i hfi
    have hbf : (sendBackward [id] S).elementOrder =
        sendBackwardOne S.elementOrder id := rfl
    have hget : (S.elementOrder)[i]? = some id := firstIdx_getElem? _ _ _ hfi
    constructor
    · intro hpos
      have hlen : i < S.elementOrder.length := firstIdx_lt_length _ _ _ hfi
      have hlt1 : i - 1 < S.elementOrder.length := by omega
      obtain ⟨b, hb⟩ : ∃ b, (S.elementOrder)[i - 1]? = some b :=
        ⟨S.elementOrder[i - 1], List.getElem?_eq_getElem hlt1⟩
      have hswap : (sendBackward [id] S).elementOrder =
          swapIdx S.elementOrder i (i - 1) := by
        rw [hbf]
        simp only [sendBackwardOne, hfi]
        rw [if_pos hpos]
      refine ⟨?_, ?_, ?_⟩
      · rw [hswap]
        exact swapIdx_getElem?_snd _ _ _ _ _ hget hb
      · rw [hswap, hb]
        exact swapIdx_getElem?_fst _ _ _ _ _ hget hb (by omega)
      · intro j hji hji1
        rw [hswap]
        exact swapIdx_getElem?_other _ _ _ _ _ hget hb j hji hji1
    · intro hz
      rw [hbf]
      simp only [sendBackwardOne, hfi]
      rw [if_neg hz]

/-- Witness for C5 (amended): scenario D at a concrete three-element
state. -/
theorem c5_zorder_witness :
    (bringToFront ["b"] c5WitnessState).elementOrder = ["a", "c", "b"] ∧
    (sendToBack ["c"] c5WitnessState).elementOrder = ["c", "a", "b"] :=
  c5_zorder.2.1 c5WitnessState rfl

/-! ### Geometry: coordinate transform and wheel zoom (Canvas.tsx) -/

/-- `screenToCanvas` (Canvas.tsx): inverse viewport mapping. -/
def screenToCanvas (t : Transform) (p : Pt) : Pt :=
  ⟨(p.x - t.x) / t.scale, (p.y - t.y) / t.scale⟩

/-- `Math.min(Math.max(s, 0.1), 10)`, the scale clamp used by the wheel
handler. -/
def clampScale (s : ℚ) : ℚ :=
  min (max s (1/10)) 10

theorem clampScale_pos (s : ℚ) : 0 < clampScale s :=
  lt_of_lt_of_le (by norm_num)
    (le_min (le_max_right s (1/10)) (by norm_num))

/-- `handleWheel` (Canvas.tsx): zoom about the mouse position.
`delta = deltaY > 0 ? 0.9 : 1.1`, the new scale is clamped into
`[0.1, 10]`, and the offset is re-solved so the mouse point is fixed. -/
def handleWheel (deltaY : ℚ) (mouse : Pt) (t : Transform) : Transform :=
  let delta : ℚ := if deltaY > 0 then 9/10 else 11/10
  let newScale : ℚ := clampScale (t.scale * delta)
  { x := mouse.x - (mouse.x - t.x) * (newScale / t.scale)
    y := mouse.y - (mouse.y - t.y) * (newScale / t.scale)
    scale := newScale }

/-- C6.  For every transform with scale in `[0.1, 10]` (positivity is all
that is used), every screen point and every wheel delta, the wheel-zoom
handler keeps `screenToCanvas` of the mouse point unchanged — exactly, over
the rationals. -/
theorem c6_zoom_anchor (t : Transform) (mouse : Pt) (deltaY : ℚ)
    (hlo : 1/10 ≤ t.scale) (hhi : t.scale ≤ 10) :
    screenToCanvas (handleWheel deltaY mouse t) mouse = screenToCanvas t mouse := by
  have hpos : 0 < t.scale := lt_of_lt_of_le (by norm_num) hlo
  have hs0 : t.scale ≠ 0 := ne_of_gt hpos
  simp only [handleWheel, screenToCanvas]
  set ns : ℚ := clampScale (t.scale * (if deltaY > 0 then 9/10 else 11/10)) with hnsdef
  have hns0 : ns ≠ 0 := ne_of_gt (clampScale_pos _)
  simp only [Pt.mk.injEq]
  constructor <;> · field_simp
                    ring

/-- Witness for C6 at a concrete transform, mouse point and wheel delta. -/
theorem c6_zoom_anchor_witness :
    screenToCanvas (handleWheel 120 ⟨300, 200⟩ ⟨50, 40, 2⟩) ⟨300, 200⟩ =
      screenToCanvas ⟨50, 40, 2⟩ ⟨300, 200⟩ :=
  c6_zoom_anchor ⟨50, 40, 2⟩ ⟨300, 200⟩ 120 (by norm_num) (by norm_num)

/-! ### C8: resize-handle math (Canvas.tsx handleMouseMove, resize branch) -/

/-- The resize handles (`ResizeHandle` in src/types/canvas.ts). -/
inductive Handle where
  | nw
  | n
  | ne
  | w
  | e
  | sw
  | s
  | se
  | rotation
deriving DecidableEq, Repr

/-- `resizeHandle.includes('w')` on the handle name. -/
def Handle.hasW : Handle → Bool
  | .nw | .w | .sw => true
  | _ => false

/-- `resizeHandle.includes('n')` on the handle name.  The string
`"rotation"` contains the letter `n`, exactly as in the source. -/
def Handle.hasN : Handle → Bool
  | .nw | .n | .ne | .rotation => true
  | _ => false

/-- The `switch (resizeHandle)` over handles: the raw box before the
minimum-size clamp (`rotation` matches no case and leaves the box as is). -/
def resizeRaw (el : Bounds) (h : Handle) (dx dy : ℚ) : Bounds :=
  match h with
  | .nw => ⟨el.x + dx, el.y + dy, el.width - dx, el.height - dy⟩
  | .n => ⟨el.x, el.y + dy, el.width, el.height - dy⟩
  | .ne => ⟨el.x, el.y + dy, el.width + dx, el.height - dy⟩
  | .w => ⟨el.x + dx, el.y, el.width - dx, el.height⟩
  | .e => ⟨el.x, el.y, el.width + dx, el.height⟩
  | .sw => ⟨el.x + dx, el.y, el.width - dx, el.height + dy⟩
  | .s => ⟨el.x, el.y, el.width, el.height + dy⟩
  | .se => ⟨el.x, el.y, el.width + dx, el.height + dy⟩
  | .rotation => ⟨el.x, el.y, el.width, el.height⟩

/-- The minimum-size clamp (`minSize = 20`): a computed dimension below 20
becomes 20, and the position on that axis is re-anchored from the original
box when the handle name contains `w` (x axis) / `n` (y axis). -/
def applyResize (el : Bounds) (h : Handle) (dx dy : ℚ) : Bounds :=
  let r := resizeRaw el h dx dy
  let minSize : ℚ := 20
  ⟨if r.width < minSize then
      (if h.hasW then el.x + el.width - minSize else r.x) else r.x,
   if r.height < minSize then
      (if h.hasN then el.y + el.height - minSize else r.y) else r.y,
   if r.width < minSize then minSize else r.width,
   if r.height < minSize then minSize else r.height⟩

/-- `Math.round` on a rational (round half toward +∞, as in JS). -/
def jsRound (q : ℚ) : ℚ := (round q : ℤ)

/-- One grid-snapped coordinate: `Math.round(v / gridSize) * gridSize`. -/
def snapVal (gridSize v : ℚ) : ℚ := jsRound (v / gridSize) * gridSize

/-- A full resize move sample: handle math, clamp, then grid snap of the
whole box when snapping is enabled (the value then written via
`updateElementSilent`). -/
def resizeMove (snap : Bool) (gridSize : ℚ) (el : Bounds) (h : Handle)
    (dx dy : ℚ) : Bounds :=
  let r := applyResize el h dx dy
  if snap then
    ⟨snapVal gridSize r.x, snapVal gridSize r.y,
     snapVal gridSize r.width, snapVal gridSize r.height⟩
  else r

theorem resizeRaw_x_of_not_hasW (el : Bounds) (h : Handle) (dx dy : ℚ)
    (hw : h.hasW = false) : (resizeRaw el h dx dy).x = el.x := by
  cases h <;> simp_all [Handle.hasW, resizeRaw]

theorem resizeRaw_y_of_not_hasN (el : Bounds) (h : Handle) (dx dy : ℚ)
    (hn : h.hasN = false) : (resizeRaw el h dx dy).y = el.y := by
  cases h <;> simp_all [Handle.hasN, resizeRaw]

/-- C8.  For every element box and every resize handle: a computed
dimension below 20 is clamped to 20, with the clamped box's position
re-anchored only when the handle name contains `w` (x) / `n` (y) so the
opposite edge stays fixed (for other handles the position coordinate stays
the original one); unclamped dimensions and positions pass through; and
scenario E holds: resizing a 100×100 box from `se` by (−90, −90) yields
20×20 with `x`, `y` unchanged (grid snapping disabled, i.e. before the
optional snap step of `resizeMove`). -/
theorem c8_resize_clamp (el : Bounds) (h : Handle) (dx dy : ℚ) :
    ((resizeRaw el h dx dy).width < 20 →
      (applyResize el h dx dy).width = 20 ∧
      (h.hasW = true →
        (applyResize el h dx dy).x + (applyResize el h dx dy).width =
          el.x + el.width) ∧
      (h.hasW = false → (applyResize el h dx dy).x = el.x)) ∧
    ((resizeRaw el h dx dy).height < 20 →
      (applyResize el h dx dy).height = 20 ∧
      (h.hasN = true →
        (applyResize el h dx dy).y + (applyResize el h dx dy).height =
          el.y + el.height) ∧
      (h.hasN = false → (applyResize el h dx dy).y = el.y)) ∧
    (¬ (resizeRaw el h dx dy).width < 20 →
      (applyResize el h dx dy).width = (resizeRaw el h dx dy).width ∧
      (applyResize el h dx dy).x = (resizeRaw el h dx dy).x) ∧
    (¬ (resizeRaw el h dx dy).height < 20 →
      (applyResize el h dx dy).height = (resizeRaw el h dx dy).height ∧
      (applyResize el h dx dy).y = (resizeRaw el h dx dy).y) ∧
    (∀ x y : ℚ,
      applyResize ⟨x, y, 100, 100⟩ Handle.se (-90) (-90) = ⟨x, y, 20, 20⟩) := by
  refine ⟨?_, ?_, ?_, ?_, ?_⟩
  · intro hlt
    refine ⟨by simp [applyResize, hlt], ?_, ?_⟩
    · intro hW
      simp [applyResize, hlt, hW]
    · intro hW
      simp [applyResize, hlt, hW]
      exact resizeRaw_x_of_not_hasW el h dx dy hW
  · intro hlt
    refine ⟨by simp [applyResize, hlt], ?_, ?_⟩
    · intro hN
      simp [applyResize, hlt, hN]
    · intro hN
      simp [applyResize, hlt, hN]
      exact resizeRaw_y_of_not_hasN el h dx dy hN
  · intro hge
    exact ⟨by simp [applyResize, hge], by simp [applyResize, hge]⟩
  · intro hge
    exact ⟨by simp [applyResize, hge], by simp [applyResize, hge]⟩
  · intro x y
    norm_num [applyResize, resizeRaw, Handle.hasW, Handle.hasN]

/-- Witness for C8: a concrete clamped resize from the `w` handle keeps
the east edge fixed, and scenario E is instantiated. -/
theorem c8_resize_clamp_witness :
    (applyResize ⟨0, 0, 100, 100⟩ Handle.w 90 0).width = 20 ∧
    (applyResize ⟨0, 0, 100, 100⟩ Handle.w 90 0).x +
      (applyResize ⟨0, 0, 100, 100⟩ Handle.w 90 0).width = 0 + 100 ∧
    applyResize ⟨3, 4, 100, 100⟩ Handle.se (-90) (-90) = ⟨3, 4, 20, 20⟩ :=
  ⟨((c8_resize_clamp ⟨0, 0, 100, 100⟩ Handle.w 90 0).1 (by norm_num [resizeRaw])).1,
   ((c8_resize_clamp ⟨0, 0, 100, 100⟩ Handle.w 90 0).1
      (by norm_num [resizeRaw])).2.1 rfl,
   (c8_resize_clamp ⟨0, 0, 100, 100⟩ Handle.w 90 0).2.2.2.2 3 4⟩

/-! ### C3: locked elements -/

/-- `SelectionOverlay.tsx`: resize handles are rendered only when exactly
one element is selected and it is not locked
(`selectedElements.length === 1 && !selectedElements[0].locked`). -/
def showResizeHandles (selectedElements : List Element) : Bool :=
  match selectedElements with
  | [el] => !el.locked
  | _ => false

/-- The per-element move of the drag gesture (Canvas.tsx handleMouseMove,
`isDraggingElement` branch): write `startPos + delta`, grid-snapped when
enabled, through `updateElementSilent`.  There is no check of `locked`
anywhere on this path. -/
def dragMoveElement (snap : Bool) (gridSize : ℚ) (startPos : Pt)
    (dx dy : ℚ) (now : Nat) (id : String) (S : CanvasState) : CanvasState :=
  let newX := if snap then snapVal gridSize (startPos.x + dx)
    else startPos.x + dx
  let newY := if snap then snapVal gridSize (startPos.y + dy)
    else startPos.y + dy
  updateElementSilent id { x := some newX, y := some newY } now S

/-- C3 (amended).  A locked element is never included by `selectAll`, and
the selection overlay shows no resize handles for a locked single
selection, so no resize gesture can start on it; but move/resize mutations
themselves are not blocked: `updateElement`/`updateElementSilent` ignore
`locked`, and the drag gesture does move a clicked locked element (see the
counterexample). -/
theorem c3_locked (S : CanvasState) (id : String) (el : Element)
    (hfind : findKey S.elements id = some el) (hlock : el.locked = true) :
    id ∉ (selectAll S).selectedIds ∧ showResizeHandles [el] = false := by
  constructor
  · intro hmem
    have hpred := List.of_mem_filter hmem
    rw [hfind] at hpred
    simp [hlock] at hpred
  · simp [showResizeHandles, hlock]

/-- A locked element and a state selecting it. -/
def lockedElem : Element := { elemA with id := "L", locked := true }

def c3State : CanvasState :=
  { elements := [("L", lockedElem)], elementOrder := ["L"],
    transform := ⟨0, 0, 1⟩, selectedIds := ["L"], history := [],
    historyIndex := -1, clipboard := [] }

/-- C3 counterexample.  The drag gesture *does* change a locked element:
one drag sample of (5, 0) from start position (0, 0), snapping disabled,
moves the locked element's `x` from 0 to 5 via `updateElementSilent` —
contradicting "no move mutation changes that element". -/
theorem c3_counterexample :
    (findKey c3State.elements "L").map Element.locked = some true ∧
    (findKey c3State.elements "L").map Element.x = some 0 ∧
    (findKey (dragMoveElement false 20 ⟨0, 0⟩ 5 0 7 "L" c3State).elements
        "L").map Element.x = some 5 := by
  refine ⟨by decide, by decide, ?_⟩
  norm_num [dragMoveElement, updateElementSilent, applyUpdate, c3State,
    lockedElem, elemA, findKey, setKey]

/-- Witness for C3 (amended) at the concrete locked element. -/
theorem c3_locked_witness :
    "L" ∉ (selectAll c3State).selectedIds ∧
    showResizeHandles [lockedElem] = false :=
  c3_locked c3State "L" lockedElem (by decide) (by decide)

/-! ### C10: paste records no history -/

/-- C10.  For every state, fresh-id oracle, timestamp and offset: paste
leaves the history stack and cursor unchanged (so a paste can never be
reverted by undo); on an empty clipboard it leaves the entire state
unchanged; on a nonempty clipboard it appends the fresh ids to the order
and replaces the selection with exactly them. -/
theorem c10_paste_frame (S : CanvasState) (freshIds : List String)
    (now : Nat) (offset : Pt) :
    (paste freshIds now offset S).history = S.history ∧
    (paste freshIds now offset S).historyIndex = S.historyIndex ∧
    (S.clipboard = [] → paste freshIds now offset S = S) ∧
    (S.clipboard ≠ [] →
      (paste freshIds now offset S).elementOrder =
        S.elementOrder ++ (S.clipboard.zip freshIds).map (fun p => p.2) ∧
      (paste freshIds now offset S).selectedIds =
        (S.clipboard.zip freshIds).map (fun p => p.2)) := by
  refine ⟨?_, ?_, ?_, ?_⟩
  · by_cases hc : S.clipboard.isEmpty <;> simp [paste, hc]
  · by_cases hc : S.clipboard.isEmpty <;> simp [paste, hc]
  · intro hc
    simp [paste, hc]
  · intro hc
    have hne : S.clipboard.isEmpty = false := by
      simpa [List.isEmpty_iff] using hc
    constructor <;> simp [paste, hne, List.map_map, cloneWith]

/-- A state with a nonempty clipboard. -/
def c10State : CanvasState :=
  { elements := [], elementOrder := [], transform := ⟨0, 0, 1⟩,
    selectedIds := [], history := [], historyIndex := -1,
    clipboard := [elemA] }

/-- Witness for C10 at a concrete nonempty clipboard. -/
theorem c10_paste_frame_witness :
    (paste ["n1"] 5 ⟨20, 20⟩ c10State).history = c10State.history ∧
    (paste ["n1"] 5 ⟨20, 20⟩ c10State).elementOrder =
      c10State.elementOrder ++
        (c10State.clipboard.zip ["n1"]).map (fun p => p.2) :=
  ⟨(c10_paste_frame c10State ["n1"] 5 ⟨20, 20⟩).1,
   ((c10_paste_frame c10State ["n1"] 5 ⟨20, 20⟩).2.2.2 (by decide)).1⟩

/-! ### C9: the scale range -/

/-- The documented scale range `[0.1, 10]`. -/
def scaleInRange (s : ℚ) : Prop :=
  1/10 ≤ s ∧ s ≤ 10

/-- C9 counterexample.  `setTransform` is in the claim's list but performs
no clamping: passing `scale = 50` to a state whose scale is 1 (inside the
range) produces scale 50, outside `[0.1, 10]`. -/
theorem c9_counterexample :
    c1WitnessState.transform.scale = 1 ∧
    (setTransform { scale := some 50 } c1WitnessState).transform.scale = 50 ∧
    ¬ ((50 : ℚ) ≤ 10) := by
  refine ⟨rfl, rfl, by norm_num⟩

/-- C9 (amended).  Starting in range, the scale stays in `[0.1, 10]` after
`zoomIn`, `zoomOut`, `resetZoom` and the wheel-zoom handler;
`setTransform` writes the supplied scale verbatim, so it preserves the
range exactly when the supplied scale (if any) is in range; `zoomToFit`
is a no-op on an empty document and otherwise only guarantees
`scale ≤ 1` — it has no lower clamp. -/
theorem c9_scale_range (S : CanvasState)
    (hS : scaleInRange S.transform.scale) :
    scaleInRange (zoomIn S).transform.scale ∧
    scaleInRange (zoomOut S).transform.scale ∧
    scaleInRange (resetZoom S).transform.scale ∧
    (∀ (deltaY : ℚ) (mouse : Pt),
      scaleInRange (handleWheel deltaY mouse S.transform).scale) ∧
    (∀ u : TransformUpdate, (∀ s, u.scale = some s → scaleInRange s) →
      scaleInRange (setTransform u S).transform.scale) ∧
    (∀ innerW innerH : ℚ,
      (S.elements = [] →
        (zoomToFit innerW innerH S).transform.scale = S.transform.scale) ∧
      (S.elements ≠ [] →
        (zoomToFit innerW innerH S).transform.scale ≤ 1)) := by
  obtain ⟨hlo, hhi⟩ := hS
  have hpos : (0 : ℚ) ≤ S.transform.scale := le_trans (by norm_num) hlo
  refine ⟨⟨?_, ?_⟩, ⟨?_, ?_⟩, by norm_num [resetZoom, scaleInRange], ?_, ?_, ?_⟩
  · refine le_min ?_ (by norm_num)
    calc (1/10 : ℚ) ≤ S.transform.scale := hlo
    _ ≤ S.transform.scale * (12/10) := by nlinarith
  · exact min_le_right _ _
  · exact le_max_right _ _
  · refine max_le ?_ (by norm_num)
    calc S.transform.scale / (12/10) ≤ S.transform.scale := by nlinarith
    _ ≤ 10 := hhi
  · intro deltaY mouse
    constructor
    · exact le_min (le_max_right _ _) (by norm_num)
    · exact min_le_right _ _
  · intro u hu
    rcases hscale : u.scale with _ | s
    · have heq : (setTransform u S).transform.scale = S.transform.scale := by
        simp [setTransform, hscale]
      rw [heq]
      exact ⟨hlo, hhi⟩
    · have heq : (setTransform u S).transform.scale = s := by
        simp [setTransform, hscale]
      rw [heq]
      exact hu s hscale
  · intro innerW innerH
    constructor
    · intro hemp
      simp [zoomToFit, hemp, getElementsBounds]
    · intro hne
      rcases hel : S.elements with _ | ⟨p, rest⟩
      · exact absurd hel hne
      · simp only [zoomToFit, hel, List.map_cons, getElementsBounds]
        exact min_le_right _ _

/-- Witness for C9 (amended) at a concrete in-range state. -/
theorem c9_scale_range_witness :
    scaleInRange (zoomIn c1WitnessState).transform.scale ∧
    scaleInRange (zoomOut c1WitnessState).transform.scale :=
  ⟨(c9_scale_range c1WitnessState (by norm_num [scaleInRange, c1WitnessState])).1,
   (c9_scale_range c1WitnessState (by norm_num [scaleInRange, c1WitnessState])).2.1⟩

/-! ### C2: the order/selection invariant — map/order toolkit -/

theorem findKey_isSome_iff {α : Type} (m : List (String × α)) (k : String) :
    (findKey m k).isSome ↔ k ∈ mapKeys m := by
  induction m with
  | nil => simp [mapKeys]
  | cons p rest ih =>
    obtain ⟨k₁, v₁⟩ := p
    by_cases h : k₁ = k
    · subst h
      simp [mapKeys, findKey]
    · simp [mapKeys, findKey, h, ih, Ne.symm h]

theorem findKey_eq_none_iff {α : Type} (m : List (String × α)) (k : String) :
    findKey m k = none ↔ k ∉ mapKeys m := by
  rw [← findKey_isSome_iff]
  cases findKey m k <;> simp

theorem mapKeys_setKey {α : Type} (m : List (String × α)) (k : String)
    (v : α) :
    mapKeys (setKey m k v) =
      if (findKey m k).isSome then mapKeys m else mapKeys m ++ [k] := by
  induction m with
  | nil => simp [setKey, mapKeys, findKey]
  | cons p rest ih =>
    obtain ⟨k₁, v₁⟩ := p
    by_cases h : k₁ = k
    · subst h
      simp [setKey, mapKeys, findKey]
    · have hout : findKey ((k₁, v₁) :: rest) k = findKey rest k := by
        simp [findKey, h]
      have hset : setKey ((k₁, v₁) :: rest) k v = (k₁, v₁) :: setKey rest k v := by
        simp [setKey, h]
      rw [hout, hset]
      have hcons : mapKeys ((k₁, v₁) :: setKey rest k v) =
          k₁ :: mapKeys (setKey rest k v) := rfl
      rw [hcons, ih]
      by_cases hs : (findKey rest k).isSome <;> simp [hs, mapKeys]

theorem keys_delKey_sublist {α : Type} (m : List (String × α)) (k : String) :
    (mapKeys (delKey m k)).Sublist (mapKeys m) :=
  (List.filter_sublist m).map Prod.fst

/-- The invariant of the (elements, elementOrder) pair: unique keys,
duplicate-free order, and the order holds exactly the live ids. -/
def PairInv (m : List (String × Element)) (ord : List String) : Prop :=
  (mapKeys m).Nodup ∧ ord.Nodup ∧
  (∀ id ∈ ord, (findKey m id).isSome) ∧
  (∀ id ∈ mapKeys m, id ∈ ord)

/-- C2's order invariant: `elementOrder` is a duplicate-free permutation of
`keys(elements)`. -/
def OrderInv (S : CanvasState) : Prop :=
  PairInv S.elements S.elementOrder

/-- C2's selection invariant: `selectedIds ⊆ keys(elements)`. -/
def SelInv (S : CanvasState) : Prop :=
  ∀ id ∈ S.selectedIds, (findKey S.elements id).isSome

instance (m : List (String × Element)) (ord : List String) :
    Decidable (PairInv m ord) := by
  unfold PairInv
  infer_instance

instance (S : CanvasState) : Decidable (OrderInv S) := by
  unfold OrderInv
  infer_instance

instance (S : CanvasState) : Decidable (SelInv S) := by
  unfold SelInv
  infer_instance

theorem pairInv_of_perm (m : List (String × Element)) (ord ord₂ : List String)
    (hperm : ord₂.Perm ord) (h : PairInv m ord) : PairInv m ord₂ := by
  obtain ⟨h1, h2, h3, h4⟩ := h
  exact ⟨h1, hperm.nodup_iff.mpr h2,
    fun id hid => h3 id (hperm.mem_iff.mp hid),
    fun id hid => hperm.mem_iff.mpr (h4 id hid)⟩

/-- Setting a fresh key and appending it to the order preserves the
invariant. -/
theorem pairInv_set_fresh (m : List (String × Element)) (ord : List String)
    (k : String) (el : Element) (h : PairInv m ord)
    (hfresh : findKey m k = none) :
    PairInv (setKey m k el) (ord ++ [k]) := by
  obtain ⟨h1, h2, h3, h4⟩ := h
  have hkeys : mapKeys (setKey m k el) = mapKeys m ++ [k] := by
    rw [mapKeys_setKey, hfresh]
    rfl
  have hnotkeys : k ∉ mapKeys m := (findKey_eq_none_iff m k).mp hfresh
  have hnotord : k ∉ ord := fun hc => by
    have hs := h3 k hc
    rw [hfresh] at hs
    cases hs
  refine ⟨?_, ?_, ?_, ?_⟩
  · rw [hkeys]
    refine List.Nodup.append h1 (List.nodup_singleton _) ?_
    intro x hx hx'
    simp only [List.mem_singleton] at hx'
    subst hx'
    exact hnotkeys hx
  · refine List.Nodup.append h2 (List.nodup_singleton _) ?_
    intro x hx hx'
    simp only [List.mem_singleton] at hx'
    subst hx'
    exact hnotord hx
  · intro id hid
    rcases List.mem_append.mp hid with hid | hid
    · rw [findKey_setKey]
      split
      · rfl
      · exact h3 id hid
    · simp only [List.mem_singleton] at hid
      subst hid
      rw [findKey_setKey_same]
      rfl
  · intro id hid
    rw [hkeys] at hid
    rcases List.mem_append.mp hid with hid | hid
    · exact List.mem_append_left _ (h4 id hid)
    · exact List.mem_append_right _ hid

/-- Overwriting a present key preserves the invariant with the order
untouched. -/
theorem pairInv_set_present (m : List (String × Element)) (ord : List String)
    (k : String) (el : Element) (h : PairInv m ord)
    (hsome : (findKey m k).isSome) :
    PairInv (setKey m k el) ord := by
  obtain ⟨h1, h2, h3, h4⟩ := h
  have hkeys : mapKeys (setKey m k el) = mapKeys m := by
    rw [mapKeys_setKey, if_pos hsome]
  refine ⟨by rw [hkeys]; exact h1, h2, ?_, ?_⟩
  · intro id hid
    rw [findKey_setKey]
    split
    · rfl
    · exact h3 id hid
  · intro id hid
    rw [hkeys] at hid
    exact h4 id hid

/-- Inserting many elements with fresh, duplicate-free ids (the pattern of
`paste` and `duplicateElements`). -/
theorem pairInv_insert_many (els : List Element)
    (m : List (String × Element)) (ord : List String) (h : PairInv m ord)
    (hnd : (els.map Element.id).Nodup)
    (hfresh : ∀ el ∈ els, findKey m el.id = none) :
    PairInv (els.foldl (fun acc el => setKey acc el.id el) m)
      (ord ++ els.map Element.id) := by
  induction els generalizing m ord with
  | nil => simpa using h
  | cons el rest ih =>
    have h1 := pairInv_set_fresh m ord el.id el h
      (hfresh el (List.mem_cons_self _ _))
    have hndrest : (rest.map Element.id).Nodup := (List.nodup_cons.mp hnd).2
    have hhead : el.id ∉ rest.map Element.id := (List.nodup_cons.mp hnd).1
    have hfreshrest : ∀ e ∈ rest, findKey (setKey m el.id el) e.id = none := by
      intro e he
      rw [findKey_setKey]
      have hne : el.id ≠ e.id := fun hc => hhead (by
        rw [hc]
        exact List.mem_map_of_mem Element.id he)
      rw [if_neg hne]
      exact hfresh e (List.mem_cons_of_mem _ he)
    have hres := ih (setKey m el.id el) (ord ++ [el.id]) h1 hndrest hfreshrest
    simpa [List.append_assoc] using hres

theorem nodup_foldl_erase (ids : List String) (ord : List String)
    (h : ord.Nodup) : (ids.foldl List.erase ord).Nodup := by
  induction ids generalizing ord with
  | nil => exact h
  | cons a rest ih => exact ih _ (h.erase a)

theorem mem_foldl_erase (ids : List String) (ord : List String)
    (hnd : ord.Nodup) (id : String) :
    id ∈ ids.foldl List.erase ord ↔ id ∈ ord ∧ id ∉ ids := by
  induction ids generalizing ord with
  | nil => simp
  | cons a rest ih =>
    rw [List.foldl_cons, ih _ (hnd.erase a), List.Nodup.mem_erase_iff hnd]
    simp only [List.mem_cons]
    tauto

theorem keys_foldl_delKey_sublist (ids : List String)
    (m : List (String × Element)) :
    (mapKeys (ids.foldl delKey m)).Sublist (mapKeys m) := by
  induction ids generalizing m with
  | nil => exact List.Sublist.refl _
  | cons a rest ih => exact (ih (delKey m a)).trans (keys_delKey_sublist m a)

/-- Deletion of a list of ids from both map and order (the pattern of
`deleteElements`). -/
theorem pairInv_delete (ids : List String) (m : List (String × Element))
    (ord : List String) (h : PairInv m ord) :
    PairInv (ids.foldl delKey m) (ids.foldl List.erase ord) := by
  obtain ⟨h1, h2, h3, h4⟩ := h
  refine ⟨(keys_foldl_delKey_sublist ids m).nodup h1,
    nodup_foldl_erase ids ord h2, ?_, ?_⟩
  · intro id hid
    rw [mem_foldl_erase ids ord h2] at hid
    rw [findKey_foldl_delKey, if_neg hid.2]
    exact h3 id hid.1
  · intro id hid
    have hsome : (findKey (ids.foldl delKey m) id).isSome :=
      (findKey_isSome_iff _ _).mpr hid
    rw [findKey_foldl_delKey] at hsome
    by_cases hin : id ∈ ids
    · rw [if_pos hin] at hsome
      cases hsome
    · rw [if_neg hin] at hsome
      rw [mem_foldl_erase ids ord h2]
      exact ⟨h4 id ((findKey_isSome_iff m id).mp hsome), hin⟩

/-- One undo/redo restore step preserves the invariant, for an arbitrary
snapshot map. -/
theorem pairInv_restoreStep (snap : List (String × Option Element))
    (acc : List (String × Element) × List String) (a : String)
    (h : PairInv acc.1 acc.2) :
    PairInv (restoreStep snap acc a).1 (restoreStep snap acc a).2 := by
  obtain ⟨h1, h2, h3, h4⟩ := h
  rcases hv : findKey snap a with _ | v
  · simpa [restoreStep, hv] using ⟨h1, h2, h3, h4⟩
  · rcases v with _ | el
    · simp only [restoreStep, hv]
      refine ⟨(keys_delKey_sublist acc.1 a).nodup h1, h2.erase a, ?_, ?_⟩
      · intro id hid
        rw [List.Nodup.mem_erase_iff h2] at hid
        rw [findKey_delKey, if_neg (Ne.symm hid.1)]
        exact h3 id hid.2
      · intro id hid
        have hsome : (findKey (delKey acc.1 a) id).isSome :=
          (findKey_isSome_iff _ _).mpr hid
        rw [findKey_delKey] at hsome
        by_cases hai : a = id
        · rw [if_pos hai] at hsome
          cases hsome
        · rw [if_neg hai] at hsome
          rw [List.Nodup.mem_erase_iff h2]
          exact ⟨Ne.symm hai, h4 id ((findKey_isSome_iff _ _).mp hsome)⟩
    · simp only [restoreStep, hv]
      by_cases hc : acc.2.contains a
      · have ha : a ∈ acc.2 := by simpa using hc
        rw [if_pos hc]
        exact pairInv_set_present acc.1 acc.2 a el ⟨h1, h2, h3, h4⟩ (h3 a ha)
      · have ha : a ∉ acc.2 := by simpa using hc
        rw [if_neg hc]
        have hnone : findKey acc.1 a = none := by
          rw [findKey_eq_none_iff]
          intro hk
          exact ha (h4 a hk)
        exact pairInv_set_fresh acc.1 acc.2 a el ⟨h1, h2, h3, h4⟩ hnone

theorem pairInv_restore_foldl (snap : List (String × Option Element))
    (ids : List String) (acc : List (String × Element) × List String)
    (h : PairInv acc.1 acc.2) :
    PairInv (ids.foldl (restoreStep snap) acc).1
      (ids.foldl (restoreStep snap) acc).2 := by
  induction ids generalizing acc with
  | nil => exact h
  | cons a rest ih => exact ih _ (pairInv_restoreStep snap acc a h)

/-! ### C2: swap steps are permutations -/

theorem swapIdx_adjacent_perm (l : List String) (k : Nat)
    (h : k + 1 < l.length) : (swapIdx l k (k + 1)).Perm l := by
  induction k generalizing l with
  | zero =>
    match l, h with
    | x :: y :: rest, _ =>
      exact List.Perm.swap x y rest
  | succ k ih =>
    match l, h with
    | x :: rest, h =>
      have hr : k + 1 < rest.length := by
        simp only [List.length_cons] at h
        omega
      have hk : k < rest.length := by omega
      obtain ⟨a, ha⟩ : ∃ a, rest[k]? = some a :=
        ⟨rest[k], List.getElem?_eq_getElem hk⟩
      obtain ⟨b, hb⟩ : ∃ b, rest[k + 1]? = some b :=
        ⟨rest[k + 1], List.getElem?_eq_getElem hr⟩
      have ha' : (x :: rest).get? (k + 1) = some a := by
        simpa [List.get?_eq_getElem?] using ha
      have hb' : (x :: rest).get? (k + 2) = some b := by
        simpa [List.get?_eq_getElem?] using hb
      have ha2 : rest.get? k = some a := by
        simpa [List.get?_eq_getElem?] using ha
      have hb2 : rest.get? (k + 1) = some b := by
        simpa [List.get?_eq_getElem?] using hb
      have heq : swapIdx (x :: rest) (k + 1) (k + 2) =
          x :: swapIdx rest k (k + 1) := by
        simp only [swapIdx, ha', hb', ha2, hb2, List.set]
      rw [heq]
      exact (ih rest hr).cons x

theorem swapIdx_comm (l : List String) (i j : Nat) (hij : i ≠ j) :
    swapIdx l i j = swapIdx l j i := by
  unfold swapIdx
  rcases hi : l.get? i with _ | a <;> rcases hj : l.get? j with _ | b <;>
    simp only [hi, hj]
  exact List.set_comm b a l hij

theorem bringForwardOne_eq_none (order : List String) (id : String)
    (h : firstIdx order id = none) : bringForwardOne order id = order := by
  unfold bringForwardOne
  rw [h]

theorem bringForwardOne_eq_some (order : List String) (id : String) (i : Nat)
    (h : firstIdx order id = some i) :
    bringForwardOne order id =
      if i < order.length - 1 then swapIdx order i (i + 1) else order := by
  unfold bringForwardOne
  rw [h]

theorem sendBackwardOne_eq_none (order : List String) (id : String)
    (h : firstIdx order id = none) : sendBackwardOne order id = order := by
  unfold sendBackwardOne
  rw [h]

theorem sendBackwardOne_eq_some (order : List String) (id : String) (i : Nat)
    (h : firstIdx order id = some i) :
    sendBackwardOne order id =
      if 0 < i then swapIdx order i (i - 1) else order := by
  unfold sendBackwardOne
  rw [h]

theorem bringForwardOne_perm (order : List String) (id : String) :
    (bringForwardOne order id).Perm order := by
  rcases hfi : firstIdx order id with _ | i
  · rw [bringForwardOne_eq_none order id hfi]
  · rw [bringForwardOne_eq_some order id i hfi]
    have hlen : i < order.length := firstIdx_lt_length _ _ _ hfi
    by_cases hlt : i < order.length - 1
    · rw [if_pos hlt]
      exact swapIdx_adjacent_perm order i (by omega)
    · rw [if_neg hlt]

theorem sendBackwardOne_perm (order : List String) (id : String) :
    (sendBackwardOne order id).Perm order := by
  rcases hfi : firstIdx order id with _ | i
  · rw [sendBackwardOne_eq_none order id hfi]
  · rw [sendBackwardOne_eq_some order id i hfi]
    have hlen : i < order.length := firstIdx_lt_length _ _ _ hfi
    by_cases hpos : 0 < i
    · rw [if_pos hpos]
      rw [swapIdx_comm order i (i - 1) (by omega)]
      have hi1 : i - 1 + 1 = i := by omega
      rw [show swapIdx order (i - 1) i =
        swapIdx order (i - 1) (i - 1 + 1) from by rw [hi1]]
      exact swapIdx_adjacent_perm order (i - 1) (by omega)
    · rw [if_neg hpos]

theorem foldl_perm_of_step (f : List String → String → List String)
    (hf : ∀ ord id, (f ord id).Perm ord) (ids : List String)
    (ord : List String) : (ids.foldl f ord).Perm ord := by
  induction ids generalizing ord with
  | nil => exact List.Perm.refl _
  | cons a rest ih => exact (ih (f ord a)).trans (hf ord a)

/-- `importFromJSON` restricted to inputs that decode to a typed document:
replace elements, replace the order (a missing `elementOrder` falls back
to the element keys), clear the selection and empty the history.  This is
the action of the source on well-formed inputs; see `c4_import` part 3. -/
def importDoc (els : List (String × Element)) (ord : Option (List String))
    (S : CanvasState) : CanvasState :=
  { S with elements := els, elementOrder := ord.getD (mapKeys els),
           selectedIds := [], history := [], historyIndex := -1 }

/-! ### C2: the store operations as a transition system -/

/-- One store operation, with oracle arguments standing in for the
nondeterministic parts of the source (`createId()` output as fresh-id
lists, `Date.now()` as `now`, window dimensions and parsed import
documents as parameters). -/
inductive Op where
  | add (el : Element)
  | update (id : String) (u : ElementUpdate) (now : Nat)
  | updateSilent (id : String) (u : ElementUpdate) (now : Nat)
  | delete (ids : List String)
  | setSelection (ids : List String)
  | addToSelection (id : String)
  | removeFromSelection (id : String)
  | clearSelection
  | selectAll
  | undo
  | redo
  | copy
  | paste (freshIds : List String) (now : Nat) (offset : Pt)
  | duplicate (ids : List String) (freshIds : List String) (now : Nat)
  | bringToFront (ids : List String)
  | sendToBack (ids : List String)
  | bringForward (ids : List String)
  | sendBackward (ids : List String)
  | importDoc (els : List (String × Element)) (ord : Option (List String))
  | clear
  | setTransform (u : TransformUpdate)
  | zoomIn
  | zoomOut
  | resetZoom
  | zoomToFit (innerW innerH : ℚ)
deriving DecidableEq

def applyOp (op : Op) (S : CanvasState) : CanvasState :=
  match op with
  | .add el => addElement el S
  | .update id u now => updateElement id u now S
  | .updateSilent id u now => updateElementSilent id u now S
  | .delete ids => deleteElements ids S
  | .setSelection ids => setSelection ids S
  | .addToSelection id => addToSelection id S
  | .removeFromSelection id => removeFromSelection id S
  | .clearSelection => clearSelection S
  | .selectAll => selectAll S
  | .undo => undo S
  | .redo => redo S
  | .copy => copy S
  | .paste freshIds now offset => paste freshIds now offset S
  | .duplicate ids freshIds now => duplicateElements ids freshIds now S
  | .bringToFront ids => bringToFront ids S
  | .sendToBack ids => sendToBack ids S
  | .bringForward ids => bringForward ids S
  | .sendBackward ids => sendBackward ids S
  | .importDoc els ord => importDoc els ord S
  | .clear => clear S
  | .setTransform u => setTransform u S
  | .zoomIn => zoomIn S
  | .zoomOut => zoomOut S
  | .resetZoom => resetZoom S
  | .zoomToFit innerW innerH => zoomToFit innerW innerH S

/-- Well-formedness of an imported document's order field. -/
def wfImportOrd (els : List (String × Element)) :
    Option (List String) → Prop
  | some o => o.Nodup ∧ (∀ id ∈ o, (findKey els id).isSome) ∧
      (∀ id ∈ mapKeys els, id ∈ o)
  | none => True

instance (els : List (String × Element)) :
    (ord : Option (List String)) → Decidable (wfImportOrd els ord)
  | some o => by unfold wfImportOrd; infer_instance
  | none => by unfold wfImportOrd; infer_instance

/-- The argument discipline under which the amended C2 invariant holds:
generated ids are fresh (as `createId()` guarantees), z-order arguments
are duplicate-free lists of live ids, selection arguments are live ids,
and imported documents are well-formed.  All other operations are
unconstrained. -/
def wfOp (S : CanvasState) : Op → Prop
  | .add el => findKey S.elements el.id = none
  | .setSelection ids => ∀ id ∈ ids, (findKey S.elements id).isSome
  | .addToSelection id => (findKey S.elements id).isSome
  | .paste freshIds _ _ =>
      freshIds.Nodup ∧ freshIds.length = S.clipboard.length ∧
        ∀ id ∈ freshIds, findKey S.elements id = none
  | .duplicate ids freshIds _ =>
      freshIds.Nodup ∧
        freshIds.length = (ids.filterMap (findKey S.elements)).length ∧
        ∀ id ∈ freshIds, findKey S.elements id = none
  | .bringToFront ids => ids.Nodup ∧ ∀ id ∈ ids, id ∈ S.elementOrder
  | .sendToBack ids => ids.Nodup ∧ ∀ id ∈ ids, id ∈ S.elementOrder
  | .bringForward ids => ∀ id ∈ ids, id ∈ S.elementOrder
  | .sendBackward ids => ∀ id ∈ ids, id ∈ S.elementOrder
  | .importDoc els ord => (mapKeys els).Nodup ∧ wfImportOrd els ord
  | _ => True

instance (S : CanvasState) (op : Op) : Decidable (wfOp S op) := by
  cases op <;> (unfold wfOp; infer_instance)

/-- Well-formedness of a whole operation sequence, each operation judged
at the state it executes in. -/
def WfOps : CanvasState → List Op → Prop
  | _, [] => True
  | S, op :: rest => wfOp S op ∧ WfOps (applyOp op S) rest

instance WfOpsDec : (S : CanvasState) → (ops : List Op) →
    Decidable (WfOps S ops)
  | _, [] => isTrue trivial
  | S, op :: rest =>
    letI : Decidable (WfOps (applyOp op S) rest) := WfOpsDec _ rest
    inferInstanceAs (Decidable (wfOp S op ∧ WfOps (applyOp op S) rest))

/-- Every operation except undo/redo preserves the selection invariant;
undo/redo can delete an element while leaving its id selected (they never
touch `selectedIds`). -/
def preservesSelection : Op → Bool
  | .undo => false
  | .redo => false
  | _ => true

/-! ### C2: per-operation preservation -/

theorem orderInv_pushHistory (e : HistoryEntry) (T : CanvasState)
    (h : OrderInv T) : OrderInv (pushHistory e T) := by
  unfold OrderInv at h ⊢
  rw [pushHistory_elements, pushHistory_elementOrder]
  exact h

/-- Every well-formed operation preserves the order invariant. -/
theorem orderInv_applyOp (S : CanvasState) (op : Op) (hord : OrderInv S)
    (hwf : wfOp S op) : OrderInv (applyOp op S) := by
  cases op with
  | add el =>
    have hfresh : findKey S.elements el.id = none := hwf
    exact orderInv_pushHistory _ _
      (pairInv_set_fresh S.elements S.elementOrder el.id el hord hfresh)
  | update id u now =>
    rcases hfind : findKey S.elements id with _ | el₀
    · have happ : applyOp (.update id u now) S = S := by
        simp only [applyOp, updateElement, hfind]
      rw [happ]
      exact hord
    · have happ : applyOp (.update id u now) S =
          pushHistory ⟨.update, [id], [(id, some el₀)],
            [(id, some (applyUpdate u el₀ now))]⟩
          { S with elements := setKey S.elements id (applyUpdate u el₀ now) } := by
        simp only [applyOp, updateElement, hfind]
      rw [happ]
      exact orderInv_pushHistory _ _
        (pairInv_set_present S.elements S.elementOrder id _ hord
          (by rw [hfind]; rfl))
  | updateSilent id u now =>
    rcases hfind : findKey S.elements id with _ | el₀
    · have happ : applyOp (.updateSilent id u now) S = S := by
        simp only [applyOp, updateElementSilent, hfind]
      rw [happ]
      exact hord
    · have happ : applyOp (.updateSilent id u now) S =
          { S with elements := setKey S.elements id (applyUpdate u el₀ now) } := by
        simp only [applyOp, updateElementSilent, hfind]
      rw [happ]
      exact pairInv_set_present S.elements S.elementOrder id _ hord
        (by rw [hfind]; rfl)
  | delete ids =>
    exact orderInv_pushHistory _ _
      (pairInv_delete ids S.elements S.elementOrder hord)
  | setSelection ids => exact hord
  | addToSelection id =>
    simp only [applyOp]
    unfold addToSelection
    split <;> exact hord
  | removeFromSelection id => exact hord
  | clearSelection => exact hord
  | selectAll => exact hord
  | undo =>
    simp only [applyOp]
    unfold undo
    split
    · exact hord
    · split
      · exact hord
      · exact pairInv_restore_foldl _ _ _ hord
  | redo =>
    simp only [applyOp]
    unfold redo
    split
    · exact hord
    · split
      · exact hord
      · exact pairInv_restore_foldl _ _ _ hord
  | copy => exact hord
  | paste freshIds now offset =>
    obtain ⟨hnd, hlen, hfresh⟩ := hwf
    simp only [applyOp]
    unfold paste
    split
    · exact hord
    · have hids : ((S.clipboard.zip freshIds).map (cloneWith offset now)).map
          Element.id = freshIds := by
        rw [List.map_map]
        exact List.map_snd_zip S.clipboard freshIds (le_of_eq hlen)
      refine pairInv_insert_many _ S.elements S.elementOrder hord ?_ ?_
      · rw [hids]
        exact hnd
      · intro el hel
        refine hfresh el.id ?_
        rw [← hids]
        exact List.mem_map_of_mem Element.id hel
  | duplicate ids freshIds now =>
    obtain ⟨hnd, hlen, hfresh⟩ := hwf
    simp only [applyOp]
    unfold duplicateElements
    have hids : (((ids.filterMap (findKey S.elements)).zip freshIds).map
        (cloneWith ⟨20, 20⟩ now)).map Element.id = freshIds := by
      rw [List.map_map]
      exact List.map_snd_zip _ freshIds (le_of_eq hlen)
    refine pairInv_insert_many _ S.elements S.elementOrder hord ?_ ?_
    · rw [hids]
      exact hnd
    · intro el hel
      refine hfresh el.id ?_
      rw [← hids]
      exact List.mem_map_of_mem Element.id hel
  | bringToFront ids =>
    obtain ⟨hnd, hsub⟩ := hwf
    obtain ⟨h1, h2, h3, h4⟩ := hord
    show PairInv S.elements
      (S.elementOrder.filter (fun id => !ids.contains id) ++ ids)
    refine ⟨h1, ?_, ?_, ?_⟩
    · refine List.Nodup.append (h2.filter _) hnd ?_
      intro x hx hxin
      have hp := List.of_mem_filter hx
      simp only [Bool.not_eq_true'] at hp
      have hnot : x ∉ ids := by simpa using hp
      exact hnot hxin
    · intro id hid
      rcases List.mem_append.mp hid with hid | hid
      · exact h3 id (List.mem_of_mem_filter hid)
      · exact h3 id (hsub id hid)
    · intro id hid
      by_cases hin : id ∈ ids
      · exact List.mem_append_right _ hin
      · refine List.mem_append_left _ ?_
        rw [List.mem_filter]
        exact ⟨h4 id hid, by simpa using hin⟩
  | sendToBack ids =>
    obtain ⟨hnd, hsub⟩ := hwf
    obtain ⟨h1, h2, h3, h4⟩ := hord
    show PairInv S.elements
      (ids ++ S.elementOrder.filter (fun id => !ids.contains id))
    refine ⟨h1, ?_, ?_, ?_⟩
    · refine List.Nodup.append hnd (h2.filter _) ?_
      intro x hxin hx
      have hp := List.of_mem_filter hx
      simp only [Bool.not_eq_true'] at hp
      have hnot : x ∉ ids := by simpa using hp
      exact hnot hxin
    · intro id hid
      rcases List.mem_append.mp hid with hid | hid
      · exact h3 id (hsub id hid)
      · exact h3 id (List.mem_of_mem_filter hid)
    · intro id hid
      by_cases hin : id ∈ ids
      · exact List.mem_append_left _ hin
      · refine List.mem_append_right _ ?_
        rw [List.mem_filter]
        exact ⟨h4 id hid, by simpa using hin⟩
  | bringForward ids =>
    exact pairInv_of_perm _ _ _
      (foldl_perm_of_step bringForwardOne bringForwardOne_perm ids
        S.elementOrder) hord
  | sendBackward ids =>
    exact pairInv_of_perm _ _ _
      (foldl_perm_of_step sendBackwardOne sendBackwardOne_perm ids
        S.elementOrder) hord
  | importDoc els ord =>
    obtain ⟨hk, hword⟩ := hwf
    rcases ord with _ | o
    · exact ⟨hk, hk, fun id hid => (findKey_isSome_iff els id).mpr hid,
        fun id hid => hid⟩
    · obtain ⟨ho1, ho2, ho3⟩ := hword
      exact ⟨hk, ho1, ho2, ho3⟩
  | clear =>
    exact ⟨List.nodup_nil, List.nodup_nil,
      fun id hid => absurd hid (List.not_mem_nil id),
      fun id hid => absurd hid (List.not_mem_nil id)⟩
  | setTransform u => exact hord
  | zoomIn => exact hord
  | zoomOut => exact hord
  | resetZoom => exact hord
  | zoomToFit innerW innerH =>
    simp only [applyOp]
    unfold zoomToFit
    split <;> exact hord

theorem selInv_of_parts (S' : CanvasState) (sel : List String)
    (m : List (String × Element)) (hsel : S'.selectedIds = sel)
    (hm : S'.elements = m) (h : ∀ id ∈ sel, (findKey m id).isSome) :
    SelInv S' := by
  intro id hid
  rw [hsel] at hid
  rw [hm]
  exact h id hid

theorem selInv_of_orderInv_subset (S' : CanvasState) (hO : OrderInv S')
    (hsub : ∀ id ∈ S'.selectedIds, id ∈ S'.elementOrder) : SelInv S' :=
  fun id hid => hO.2.2.1 id (hsub id hid)

/-- Every well-formed operation other than undo/redo preserves the
selection invariant (undo/redo never touch `selectedIds` while they can
delete elements). -/
theorem selInv_applyOp (S : CanvasState) (op : Op) (hord : OrderInv S)
    (hsel : SelInv S) (hwf : wfOp S op)
    (hp : preservesSelection op = true) : SelInv (applyOp op S) := by
  cases op with
  | add el =>
    refine selInv_of_parts _ S.selectedIds (setKey S.elements el.id el) ?_ ?_ ?_
    · simp only [applyOp, addElement]
      rw [pushHistory_selectedIds]
    · simp only [applyOp, addElement]
      rw [pushHistory_elements]
    · intro id hid
      rw [findKey_setKey]
      split
      · rfl
      · exact hsel id hid
  | update id₀ u now =>
    rcases hfind : findKey S.elements id₀ with _ | el₀
    · have happ : applyOp (.update id₀ u now) S = S := by
        simp only [applyOp, updateElement, hfind]
      rw [happ]
      exact hsel
    · refine selInv_of_parts _ S.selectedIds
        (setKey S.elements id₀ (applyUpdate u el₀ now)) ?_ ?_ ?_
      · simp only [applyOp, updateElement, hfind]
        rw [pushHistory_selectedIds]
      · simp only [applyOp, updateElement, hfind]
        rw [pushHistory_elements]
      · intro id hid
        rw [findKey_setKey]
        split
        · rfl
        · exact hsel id hid
  | updateSilent id₀ u now =>
    rcases hfind : findKey S.elements id₀ with _ | el₀
    · have happ : applyOp (.updateSilent id₀ u now) S = S := by
        simp only [applyOp, updateElementSilent, hfind]
      rw [happ]
      exact hsel
    · refine selInv_of_parts _ S.selectedIds
        (setKey S.elements id₀ (applyUpdate u el₀ now)) ?_ ?_ ?_
      · simp only [applyOp, updateElementSilent, hfind]
      · simp only [applyOp, updateElementSilent, hfind]
      · intro id hid
        rw [findKey_setKey]
        split
        · rfl
        · exact hsel id hid
  | delete ids =>
    refine selInv_of_parts _
      (S.selectedIds.filter (fun i => !ids.contains i))
      (ids.foldl delKey S.elements) ?_ ?_ ?_
    · simp only [applyOp, deleteElements]
      rw [pushHistory_selectedIds]
    · simp only [applyOp, deleteElements]
      rw [pushHistory_elements]
    · intro id hid
      have hmem := List.mem_of_mem_filter hid
      have hp2 := List.of_mem_filter hid
      simp only [Bool.not_eq_true'] at hp2
      have hnot : id ∉ ids := by simpa using hp2
      rw [findKey_foldl_delKey, if_neg hnot]
      exact hsel id hmem
  | setSelection ids => exact fun id hid => hwf id hid
  | addToSelection id₀ =>
    simp only [applyOp]
    unfold addToSelection
    split
    · exact hsel
    · intro id hid
      rcases List.mem_append.mp hid with hid | hid
      · exact hsel id hid
      · simp only [List.mem_singleton] at hid
        subst hid
        exact hwf
  | removeFromSelection id₀ =>
    intro id hid
    exact hsel id (List.mem_of_mem_filter hid)
  | clearSelection =>
    intro id hid
    exact absurd hid (List.not_mem_nil id)
  | selectAll =>
    intro id hid
    exact (findKey_isSome_iff _ _).mpr (List.mem_of_mem_filter hid)
  | undo => simp [preservesSelection] at hp
  | redo => simp [preservesSelection] at hp
  | copy => exact hsel
  | paste freshIds now offset =>
    have hO := orderInv_applyOp S (.paste freshIds now offset) hord hwf
    refine selInv_of_orderInv_subset _ hO ?_
    simp only [applyOp]
    unfold paste
    split
    · intro id hid
      exact hord.2.2.2 id ((findKey_isSome_iff _ _).mp (hsel id hid))
    · intro id hid
      exact List.mem_append_right _ hid
  | duplicate ids freshIds now =>
    have hO := orderInv_applyOp S (.duplicate ids freshIds now) hord hwf
    refine selInv_of_orderInv_subset _ hO ?_
    intro id hid
    exact List.mem_append_right _ hid
  | bringToFront ids => exact fun id hid => hsel id hid
  | sendToBack ids => exact fun id hid => hsel id hid
  | bringForward ids => exact fun id hid => hsel id hid
  | sendBackward ids => exact fun id hid => hsel id hid
  | importDoc els ord =>
    intro id hid
    exact absurd hid (List.not_mem_nil id)
  | clear =>
    intro id hid
    exact absurd hid (List.not_mem_nil id)
  | setTransform u => exact hsel
  | zoomIn => exact hsel
  | zoomOut => exact hsel
  | resetZoom => exact hsel
  | zoomToFit innerW innerH =>
    simp only [applyOp]
    unfold zoomToFit
    split <;> exact hsel

/-- A sequence of store operations. -/
def applyOps (ops : List Op) (S : CanvasState) : CanvasState :=
  ops.foldl (fun s op => applyOp op s) S

theorem orderInv_applyOps (S : CanvasState) (ops : List Op)
    (hord : OrderInv S) (hwf : WfOps S ops) : OrderInv (applyOps ops S) := by
  induction ops generalizing S with
  | nil => exact hord
  | cons op rest ih =>
    exact ih (applyOp op S) (orderInv_applyOp S op hord hwf.1) hwf.2

theorem selInv_applyOps (S : CanvasState) (ops : List Op)
    (hord : OrderInv S) (hsel : SelInv S) (hwf : WfOps S ops)
    (hp : ∀ op ∈ ops, preservesSelection op = true) :
    SelInv (applyOps ops S) := by
  induction ops generalizing S with
  | nil => exact hsel
  | cons op rest ih =>
    exact ih (applyOp op S) (orderInv_applyOp S op hord hwf.1)
      (selInv_applyOp S op hord hsel hwf.1 (hp op (List.mem_cons_self _ _)))
      hwf.2 (fun o ho => hp o (List.mem_cons_of_mem _ ho))

/-- C2 (amended).  After any sequence of well-formed store operations (see
`wfOp`: generated ids fresh, z-order/selection arguments drawn from the
live ids, imported documents well-formed), `elementOrder` stays a
duplicate-free permutation of `keys(elements)`; and `selectedIds` stays a
subset of the live ids provided the sequence contains no undo/redo —
undo/redo can delete an element while leaving its id selected. -/
theorem c2_invariant (S : CanvasState) (ops : List Op) (hord : OrderInv S)
    (hsel : SelInv S) (hwf : WfOps S ops) :
    OrderInv (applyOps ops S) ∧
    ((∀ op ∈ ops, preservesSelection op = true) →
      SelInv (applyOps ops S)) :=
  ⟨orderInv_applyOps S ops hord hwf,
   fun hp => selInv_applyOps S ops hord hsel hwf hp⟩

/-- C2 counterexample.  From a state satisfying both invariants,
`bringToFront` called with an arbitrary id list — here an id that is not a
live element id, as the claim's "arbitrary id lists" allows — appends a
dangling id to `elementOrder`, breaking the permutation invariant. -/
theorem c2_counterexample :
    OrderInv c1WitnessState ∧ SelInv c1WitnessState ∧
    "zzz" ∈ (applyOp (Op.bringToFront ["zzz"]) c1WitnessState).elementOrder ∧
    findKey (applyOp (Op.bringToFront ["zzz"]) c1WitnessState).elements "zzz"
      = none ∧
    ¬ OrderInv (applyOp (Op.bringToFront ["zzz"]) c1WitnessState) := by
  exact ⟨by decide, by decide, by decide, by decide, by decide⟩

/-- Witness for C2 (amended) on a concrete three-operation trace. -/
theorem c2_invariant_witness :
    OrderInv (applyOps [Op.add { elemA with id := "b" }, Op.selectAll,
      Op.bringToFront ["b", "a"]] c1WitnessState) ∧
    SelInv (applyOps [Op.add { elemA with id := "b" }, Op.selectAll,
      Op.bringToFront ["b", "a"]] c1WitnessState) :=
  ⟨(c2_invariant c1WitnessState
      [Op.add { elemA with id := "b" }, Op.selectAll,
        Op.bringToFront ["b", "a"]] (by decide) (by decide) (by decide)).1,
   (c2_invariant c1WitnessState
      [Op.add { elemA with id := "b" }, Op.selectAll,
        Op.bringToFront ["b", "a"]] (by decide) (by decide) (by decide)).2
     (by decide)⟩

/-! ### C4: importFromJSON over a JSON value model -/

/-- A parsed JSON value (the result of a successful `JSON.parse`). -/
inductive Json where
  | null
  | bool (b : Bool)
  | num (q : ℚ)
  | str (s : String)
  | arr (xs : List Json)
  | obj (fields : List (String × Json))

/-- A JS value in expression position: a JSON value or `undefined`. -/
inductive JsVal where
  | undefined
  | val (j : Json)

/-- Member access `j.name`: throws a TypeError on `null`, yields
`undefined` on primitives and arrays, looks up own fields on objects. -/
def getField (j : Json) (name : String) : Except Unit JsVal :=
  match j with
  | .null => .error ()
  | .obj fields =>
    .ok (match findKey fields name with
         | some v => .val v
         | none => .undefined)
  | _ => .ok .undefined

/-- JS truthiness (`NaN` is not modelled; every modelled number is a
rational and `0` is the only falsy one). -/
def truthy : JsVal → Bool
  | .undefined => false
  | .val .null => false
  | .val (.bool b) => b
  | .val (.num q) => decide (q ≠ 0)
  | .val (.str s) => decide (s ≠ "")
  | .val (.arr _) => true
  | .val (.obj _) => true

/-- `Object.keys`: throws on `undefined`/`null`, field names on objects,
index strings on arrays, empty on primitives. -/
def objKeys : JsVal → Except Unit (List String)
  | .undefined => .error ()
  | .val .null => .error ()
  | .val (.obj fields) => .ok (fields.map Prod.fst)
  | .val (.arr xs) => .ok ((List.range xs.length).map toString)
  | .val _ => .ok []

/-- The body of the `importFromJSON` recipe: the two values the source
assigns, `data.elements || {}` and
`data.elementOrder || Object.keys(data.elements)` (note the second read of
the *raw* `data.elements`), or `error` when a step throws. -/
def importRecipe (data : Json) : Except Unit (Json × Json) := do
  let elsRaw ← getField data "elements"
  let elsVal : Json :=
    match elsRaw with
    | .val j => if truthy (.val j) then j else .obj []
    | .undefined => .obj []
  let ordRaw ← getField data "elementOrder"
  let ordVal : Json ←
    if truthy ordRaw then
      match ordRaw with
      | .val j => pure j
      | .undefined => pure (.obj [])
    else do
      let ks ← objKeys elsRaw
      pure (.arr (ks.map Json.str))
  return (elsVal, ordVal)

/-- The import outcome: `fail` when `JSON.parse` throws (the `none` input)
or the recipe throws (immer discards the draft and the `catch` only logs);
otherwise the two committed values. -/
inductive ImportOutcome where
  | fail
  | commit (elements elementOrder : Json)

def importOutcome (input : Option Json) : ImportOutcome :=
  match input with
  | none => .fail
  | some data =>
    match importRecipe data with
    | .error _ => .fail
    | .ok (e, o) => .commit e o

/-- The slice of the store `importFromJSON` writes, at the JS value level
(an ill-shaped import commits non-document values verbatim, so the two
document fields are JSON values here). -/
structure RawStore where
  elements : Json
  elementOrder : Json
  selectedIds : List String
  history : List HistoryEntry
  historyIndex : Int

/-- `importFromJSON` on the raw store. -/
def rawImport (input : Option Json) (S : RawStore) : RawStore :=
  match importOutcome input with
  | .fail => S
  | .commit e o =>
    { elements := e, elementOrder := o, selectedIds := [],
      history := [], historyIndex := -1 }

/-- `selectCanUndo` read on the raw store: `historyIndex >= 0`. -/
def rawCanUndo (S : RawStore) : Bool :=
  S.historyIndex ≥ 0

/-- A concrete raw store with one history entry and a selection. -/
def c4RawStore : RawStore :=
  { elements := .obj [], elementOrder := .arr [], selectedIds := ["a"],
    history := [⟨EntryType.batch, [], [], []⟩], historyIndex := 0 }

/-- C4 counterexample.  The input `{"elements": 5}` parses but has the
wrong shape; the source commits it anyway: the store's `elements` becomes
the number 5, the order becomes `Object.keys(5) = []`, and the history
resets — the store is *not* left unmodified, contradicting the claim's
"wrong shape ⇒ no partial replacement, store unmodified". -/
theorem c4_counterexample :
    importOutcome (some (.obj [("elements", .num 5)])) =
      .commit (.num 5) (.arr []) ∧
    (rawImport (some (.obj [("elements", .num 5)])) c4RawStore).elements =
      .num 5 ∧
    c4RawStore.elements = .obj [] ∧
    c4RawStore.historyIndex = 0 ∧
    (rawImport (some (.obj [("elements", .num 5)])) c4RawStore).historyIndex
      = -1 :=
  ⟨rfl, rfl, rfl, rfl, rfl⟩

/-- C4 (amended).  Import is atomic only against *throwing* inputs: when
parsing fails, or the recipe throws (e.g. `elements` and `elementOrder`
both absent, where `Object.keys(undefined)` raises and immer discards the
draft), the entire store is left unmodified.  When the recipe finishes it
commits the parsed values verbatim, with no shape validation; on every
commit the selection clears and the history becomes empty with
`historyIndex = -1`, so `canUndo` is false afterwards.  A well-formed
document `{elements: {..}, elementOrder: [..]}` commits exactly its two
fields. -/
theorem c4_import (input : Option Json) (S : RawStore) :
    (importOutcome input = .fail → rawImport input S = S) ∧
    (∀ e o, importOutcome input = .commit e o →
      rawImport input S =
        { elements := e, elementOrder := o, selectedIds := [],
          history := [], historyIndex := -1 } ∧
      rawCanUndo (rawImport input S) = false) ∧
    (∀ (fields : List (String × Json)) (ord : List Json),
      input = some (.obj [("elements", .obj fields),
        ("elementOrder", .arr ord)]) →
      importOutcome input = .commit (.obj fields) (.arr ord)) := by
  refine ⟨?_, ?_, ?_⟩
  · intro hf
    simp [rawImport, hf]
  · intro e o hc
    refine ⟨by simp [rawImport, hc], ?_⟩
    simp [rawImport, hc, rawCanUndo]
  · intro fields ord hin
    subst hin
    rfl

/-- Witness for C4 (amended): a failed parse leaves the concrete store
unchanged, and a concrete well-formed document commits its fields. -/
theorem c4_import_witness :
    rawImport none c4RawStore = c4RawStore ∧
    importOutcome (some (.obj [("elements", .obj []),
      ("elementOrder", .arr [])])) = .commit (.obj []) (.arr []) :=
  ⟨(c4_import none c4RawStore).1 rfl,
   (c4_import (some (.obj [("elements", .obj []), ("elementOrder", .arr [])]))
      c4RawStore).2.2 [] [] rfl⟩

end WB
